import Mathlib

/-!
Verification of the MAVLink v2 helper library of
node-red-contrib-mavlink-toolkit (frame build/scan, X.25 CRC, field
packing/unpacking) and of the buffer/dispatch logic of the mavlink-io and
mavlink-parse nodes.

The JavaScript source is shallowly embedded:
* a Node `Buffer` is a `List Nat` whose entries are bytes (< 256);
* JavaScript numbers holding integral values are `Int`; the values of
  `float`/`double` fields are represented by their IEEE-754 bit patterns
  (a `Nat` below `2^32` / `2^64`): `writeFloatLE`/`writeDoubleLE` store the
  pattern's little-endian bytes and the readers recover it, which is exact
  precisely when the number is representable at the declared width — the
  precondition of every claim that touches those fields;
* `Number(bigint)` conversion is `jsNumberOfBigInt`, round-to-nearest-even
  at 53 bits of precision (exact on the safe integer range);
* code that throws (write range checks from Node's `checkInt`, reads past
  the end of a buffer, unsupported type tags) returns `none`;
* since every write in `packPayload` advances the offset by exactly the
  number of bytes it stores, and offsets start at 0 and cover the whole
  pre-allocated buffer, buffer-plus-offset writing is embedded as emitting
  the byte list of each field in order and concatenating.
-/

namespace MavToolkit

/-! # Definitions -/

/-- Little-endian value of a byte list: `leNat [b0, b1, …] = b0 + 256*b1 + …`. -/
def leNat : List Nat → Nat
  | [] => 0
  | b :: bs => b + 256 * leNat bs

/-- The `k` little-endian base-256 digits of `n`. -/
def leBytes : Nat → Nat → List Nat
  | 0, _ => []
  | k + 1, n => (n % 256) :: leBytes k (n / 256)

/-- Interpret `n` (a `k`-byte little-endian load) as a signed two's-complement
integer, as Node's `readIntLE` family does. -/
def toSigned (k : Nat) (n : Nat) : Int :=
  if n < 2 ^ (8 * k - 1) then (n : Int) else (n : Int) - 2 ^ (8 * k)

/-- Round `n / 2^e` to the nearest integer, ties to even (`e ≥ 1`). -/
def roundHalfEven (n e : Nat) : Nat :=
  let q := n / 2 ^ e
  let r := n % 2 ^ e
  let half := 2 ^ (e - 1)
  if r > half then q + 1
  else if r < half then q
  else if q % 2 = 0 then q else q + 1

/-- JavaScript `Number(bigint)`: exact on the safe integer range, otherwise
rounded to the nearest IEEE-754 binary64 (53-bit significand, ties to even). -/
def jsNumberOfBigInt (v : Int) : Int :=
  if v.natAbs < 2 ^ 53 then v
  else
    let n := v.natAbs
    let e := n.log2 - 52
    let m := roundHalfEven n e
    (if v < 0 then -1 else 1) * (m * 2 ^ e : Nat)

/-! ## CRC Engine (X.25 / MCRF4XX), from `crcAccumulate` / `crcX25` -/

/-- One step of the X.25 CRC update, exactly as in the source:
`tmp = byte ^ (crc & 0xff); tmp = (tmp ^ (tmp << 4)) & 0xff;
return (((crc >> 8) & 0xffff) ^ (tmp << 8) ^ (tmp << 3) ^ (tmp >> 4)) & 0xffff`. -/
def crcAccumulate (byte crc : Nat) : Nat :=
  let tmp0 := byte ^^^ (crc &&& 0xff)
  let tmp := (tmp0 ^^^ (tmp0 <<< 4)) &&& 0xff
  (((crc >>> 8) &&& 0xffff) ^^^ (tmp <<< 8) ^^^ (tmp <<< 3) ^^^ (tmp >>> 4)) &&& 0xffff

/-- `crcX25(buf, seed)`: fold `crcAccumulate` over the bytes, then `& 0xffff`. -/
def crcX25 (buf : List Nat) (seed : Nat) : Nat :=
  (buf.foldl (fun crc b => crcAccumulate b crc) seed) &&& 0xffff

/-- `crcX25` with the source's default seed `0xffff`. -/
def crcX25d (buf : List Nat) : Nat := crcX25 buf 0xffff

/-! ## Type table and schema data model -/

/-- The scalar type table `typeSize` of the source; `none` for a tag that is
not in the table (JS `typeSize[t]` is `undefined`). -/
def typeSize : String → Option Nat
  | "char" => some 1
  | "int8_t" => some 1
  | "uint8_t" => some 1
  | "int16_t" => some 2
  | "uint16_t" => some 2
  | "int32_t" => some 4
  | "uint32_t" => some 4
  | "float" => some 4
  | "int64_t" => some 8
  | "uint64_t" => some 8
  | "double" => some 8
  | _ => none

/-- JS `len || 1`. -/
def orOne (n : Nat) : Nat := if n = 0 then 1 else n

/-- `sizeof(t, len) = (typeSize[t] || 0) * (len || 1)`. -/
def sizeofT (t : String) (len : Nat) : Nat := (typeSize t).getD 0 * orOne len

/-- A field of a message definition. `arrayLen = 0` models a scalar field
(the schema never produces an explicit 0 length, and the source only uses
`f.arrayLen || 0` and `f.arrayLen || 1`, which treat `undefined` and `0`
identically). -/
structure FieldDef where
  name : String
  type : String
  arrayLen : Nat
deriving DecidableEq

/-- A message definition as produced by the schema catalog. -/
structure MessageDef where
  id : Nat
  crc : Nat
  fields : List FieldDef
deriving DecidableEq

/-- The sort key used by `sortFieldsForPacking`:
`sizeof(f.type, f.arrayLen || 1)`, i.e. type width × array length. -/
def fieldKey (f : FieldDef) : Nat := sizeofT f.type (orOne f.arrayLen)

/-- Total wire size of one field: `sizeof(f.type, f.arrayLen || 1)`
(equal to `fieldKey`). -/
def fieldSize (f : FieldDef) : Nat := sizeofT f.type (orOne f.arrayLen)

/-- Insert `x` into a list sorted by descending `key`, placing `x` before the
first element whose key is ≤ `key x`. Folding this over a list from the right
is exactly a stable descending sort, the semantics ECMAScript guarantees for
`[...fields].sort((a, b) => sb - sa)`. -/
def insertDescBy (key : α → Nat) (x : α) : List α → List α
  | [] => [x]
  | y :: ys => if key x < key y then y :: insertDescBy key x ys else x :: y :: ys

/-- Stable sort by descending `key` (insertion sort from the right). -/
def stableSortDescBy (key : α → Nat) (l : List α) : List α :=
  l.foldr (insertDescBy key) []

/-- `sortFieldsForPacking`: stable sort of the fields by descending
`sizeof(type, arrayLen || 1)`. -/
def sortFieldsForPacking (fields : List FieldDef) : List FieldDef :=
  stableSortDescBy fieldKey fields

/-! ## Values held in a payload object -/

/-- A JavaScript value stored in a payload object: a number (an `Int`; for
`float`/`double` fields the integer is the IEEE bit pattern), an array of
numbers, or a string (represented by its UTF-8 bytes). -/
inductive JSValue where
  | num (v : Int)
  | arr (vs : List Int)
  | str (s : List Nat)
deriving DecidableEq

/-- Property lookup `payloadObj[name]`; `none` is JS `undefined`. -/
def lookupVal (values : List (String × JSValue)) (n : String) : Option JSValue :=
  (values.find? (fun p => p.1 == n)).map (fun p => p.2)

/-- JS `String(val)` as UTF-8 bytes: identity on strings, decimal digits for a
number, comma-joined elements for an array. -/
def jsToString : JSValue → List Nat
  | .str s => s
  | .num v => (toString v).toList.map Char.toNat
  | .arr vs => (String.intercalate "," (vs.map toString)).toList.map Char.toNat

/-! ## Scalar write/read (`writeScalarLE` / `readScalarLE`) -/

/-- Node `buf.writeIntLE`-family store of a `k`-byte signed value: the range
check of `checkInt` throws (`none`) outside `[-2^(8k-1), 2^(8k-1)-1]`,
otherwise the two's-complement little-endian bytes are stored. -/
def writeSignedK (k : Nat) (v : Int) : Option (List Nat) :=
  if -(2 ^ (8 * k - 1)) ≤ v ∧ v ≤ 2 ^ (8 * k - 1) - 1 then
    some (leBytes k (v % (2 ^ (8 * k)) : Int).toNat)
  else none

/-- Node `buf.writeUIntLE`-family store of a `k`-byte unsigned value. -/
def writeUnsignedK (k : Nat) (v : Int) : Option (List Nat) :=
  if 0 ≤ v ∧ v ≤ 2 ^ (8 * k) - 1 then some (leBytes k v.toNat) else none

/-- `writeScalarLE(buf, offset, type, value)`, as the bytes stored (the
source's sequential offset discipline makes this equivalent).

The `int64_t` branch mirrors the source exactly: both halves are the masked
BigInt words `value & 0xffffffffn` and `(value >> 32n) & 0xffffffffn` (BigInt
arithmetic shift and mask are floor division and remainder; for the positive
modulus `2^32` these agree with `/` and `%` on `Int`), the low half is stored
with `writeUInt32LE` and the high half with `writeInt32LE` — whose signed
range check rejects every masked word ≥ 2^31. `float`/`double` store the
value's bit pattern (see the module comment). An unknown tag throws. -/
def writeScalarLE (t : String) (v : Int) : Option (List Nat) :=
  match t with
  | "char" => writeSignedK 1 v
  | "int8_t" => writeSignedK 1 v
  | "uint8_t" => writeUnsignedK 1 v
  | "int16_t" => writeSignedK 2 v
  | "uint16_t" => writeUnsignedK 2 v
  | "int32_t" => writeSignedK 4 v
  | "uint32_t" => writeUnsignedK 4 v
  | "float" => some (leBytes 4 (v % (2 ^ 32) : Int).toNat)
  | "int64_t" =>
    let lo := (v % (2 ^ 32) : Int).toNat
    let hi := ((v / 2 ^ 32) % (2 ^ 32) : Int).toNat
    if hi ≤ 2 ^ 31 - 1 then some (leBytes 4 lo ++ leBytes 4 hi) else none
  | "uint64_t" =>
    let lo := (v % (2 ^ 32) : Int).toNat
    let hi := ((v / 2 ^ 32) % (2 ^ 32) : Int).toNat
    some (leBytes 4 lo ++ leBytes 4 hi)
  | "double" => some (leBytes 8 (v % (2 ^ 64) : Int).toNat)
  | _ => none

/-- Decode of the `bytes` stored for one scalar of type `t` (the bytes the
corresponding `readScalarLE` case loads). 64-bit kinds recombine the two
32-bit halves with `Number((hi << 32n) | lo)`, which is
`jsNumberOfBigInt (hi * 2^32 + lo)`. -/
def decodeScalar (t : String) (bytes : List Nat) : Int :=
  match t with
  | "char" => toSigned 1 (leNat bytes)
  | "int8_t" => toSigned 1 (leNat bytes)
  | "uint8_t" => leNat bytes
  | "int16_t" => toSigned 2 (leNat bytes)
  | "uint16_t" => leNat bytes
  | "int32_t" => toSigned 4 (leNat bytes)
  | "uint32_t" => leNat bytes
  | "float" => leNat bytes
  | "int64_t" =>
    jsNumberOfBigInt (toSigned 4 (leNat (bytes.drop 4)) * 2 ^ 32 + leNat (bytes.take 4))
  | "uint64_t" => jsNumberOfBigInt (leNat bytes)
  | "double" => leNat bytes
  | _ => 0

/-- `readScalarLE(buf, offset, type)`: Node's bounds check throws (`none`)
when fewer than `typeSize[t]` bytes remain past `offset`; otherwise the value
is decoded from exactly those bytes and the advanced offset is returned. -/
def readScalarLE (buf : List Nat) (off : Nat) (t : String) : Option (Int × Nat) :=
  match typeSize t with
  | none => none
  | some w =>
    if off + w ≤ buf.length then
      some (decodeScalar t ((buf.drop off).take w), off + w)
    else none

/-! ## Payload pack / unpack -/

/-- Write a list of scalars of type `t` in order, concatenating the bytes;
`none` as soon as one write throws. -/
def packList (t : String) : List Int → Option (List Nat)
  | [] => some []
  | v :: vs =>
    match writeScalarLE t v, packList t vs with
    | some b, some rest => some (b ++ rest)
    | _, _ => none

/-- The bytes `packPayload` stores for one field `f`:
* `char[n]`: `String(val)` (or `""` for a missing/null value) as UTF-8,
  truncated to `n` bytes and zero-padded to `n` bytes;
* numeric array: elements `0 … n-1` of the given array (`[]` when the value
  is not an array), each missing element defaulting to `0` (`arr[i] ?? 0`);
* scalar: the value, defaulting to `0` when absent (`val ?? 0`). A
  non-numeric scalar value is not modelled (`none`); the claims' payload
  mappings are type-correct, so no theorem exercises that branch. -/
def packField (values : List (String × JSValue)) (f : FieldDef) : Option (List Nat) :=
  let val := lookupVal values f.name
  if f.arrayLen ≠ 0 ∧ f.type = "char" then
    let s := match val with
      | none => []
      | some v => jsToString v
    some (s.take f.arrayLen ++ List.replicate (f.arrayLen - s.length) 0)
  else if f.arrayLen ≠ 0 then
    let arr := match val with
      | some (.arr vs) => vs
      | _ => []
    packList f.type ((List.range f.arrayLen).map (fun i => arr.getD i 0))
  else
    match val with
    | none => writeScalarLE f.type 0
    | some (.num v) => writeScalarLE f.type v
    | some _ => none

/-- Pack a list of fields in order, concatenating their bytes. -/
def packFields (values : List (String × JSValue)) : List FieldDef → Option (List Nat)
  | [] => some []
  | f :: fs =>
    match packField values f, packFields values fs with
    | some b, some rest => some (b ++ rest)
    | _, _ => none

/-- `packPayload(def, payloadObj)`: pack the fields in
`sortFieldsForPacking` order. The source pre-computes the total length and
writes into a zero buffer; since every branch writes exactly its field's
size, the result is the concatenation of the per-field bytes. -/
def packPayload (d : MessageDef) (values : List (String × JSValue)) : Option (List Nat) :=
  packFields values (sortFieldsForPacking d.fields)

/-- Read `n` scalars of type `t` starting at `off`. -/
def readList (buf : List Nat) (t : String) : Nat → Nat → Option (List Int × Nat)
  | 0, off => some ([], off)
  | n + 1, off =>
    match readScalarLE buf off t with
    | none => none
    | some (v, off') =>
      match readList buf t n off' with
      | none => none
      | some (vs, off'') => some (v :: vs, off'')

/-- The value `unpackPayload` produces for one field, with the advanced
offset. The `char[n]` branch takes the (possibly short) slice
`payload.subarray(off, off+n)` and cuts it at the first zero byte
(`slice.subarray(0, nul < 0 ? slice.length : nul)` = `takeWhile (· ≠ 0)`);
it never throws. -/
def unpackField (payload : List Nat) (off : Nat) (f : FieldDef) :
    Option (JSValue × Nat) :=
  if f.arrayLen ≠ 0 ∧ f.type = "char" then
    let slice := (payload.drop off).take f.arrayLen
    some (.str (slice.takeWhile (fun b => b ≠ 0)), off + f.arrayLen)
  else if f.arrayLen ≠ 0 then
    match readList payload f.type f.arrayLen off with
    | none => none
    | some (vs, off') => some (.arr vs, off')
  else
    match readScalarLE payload off f.type with
    | none => none
    | some (v, off') => some (.num v, off')

/-- Unpack a list of fields in order, accumulating `obj[f.name] = v`
assignments (the JS object is an association list in insertion order). -/
def unpackFields (payload : List Nat) :
    List FieldDef → Nat → List (String × JSValue) → Option (List (String × JSValue))
  | [], _, obj => some obj
  | f :: fs, off, obj =>
    match unpackField payload off f with
    | none => none
    | some (v, off') => unpackFields payload fs off' (obj ++ [(f.name, v)])

/-- `unpackPayload(def, payload)`: traverse the fields in
`sortFieldsForPacking` order from offset 0. -/
def unpackPayload (d : MessageDef) (payload : List Nat) :
    Option (List (String × JSValue)) :=
  unpackFields payload (sortFieldsForPacking d.fields) 0 []

/-- Total payload size of a definition: sum over the declared fields of
type width × max(arrayLength, 1). `packPayload` computes this over the
sorted fields, which is the same sum. -/
def totalSize (d : MessageDef) : Nat :=
  (d.fields.map fieldSize).sum

/-! ## Frame builder (`buildFrameV2`) -/

/-- The transport options of `buildFrameV2` with the source's defaults
(`incompatFlags 0, compatFlags 0, seq 0, sysid 1, compid 1`). -/
structure BuildOpts where
  incompatFlags : Nat
  compatFlags : Nat
  seq : Nat
  sysid : Nat
  compid : Nat
deriving DecidableEq

/-- The default options (`opts` absent). -/
def defaultOpts : BuildOpts :=
  { incompatFlags := 0, compatFlags := 0, seq := 0, sysid := 1, compid := 1 }

/-- `buildFrameV2(messageDef, payload, opts)`: 10-byte header (magic 0xFD,
length byte — a `Uint8Array` store, hence mod 256 — flags, seq, sysid,
compid, 3-byte little-endian message id), then the payload, then the 16-bit
little-endian CRC of header bytes 1..9 and the payload, seeded 0xffff, with
the definition's CRC-extra byte accumulated last. -/
def buildFrameV2 (d : MessageDef) (payload : List Nat) (opts : BuildOpts) : List Nat :=
  let header : List Nat :=
    [0xFD, payload.length % 256, opts.incompatFlags % 256, opts.compatFlags % 256,
     opts.seq % 256, opts.sysid % 256, opts.compid % 256,
     d.id % 256, (d.id >>> 8) % 256, (d.id >>> 16) % 256]
  let crc := crcAccumulate (d.crc % 256) (crcX25d (header.drop 1 ++ payload))
  header ++ payload ++ leBytes 2 crc

/-! ## Frame scanner (`scanFramesV2`) -/

/-- One candidate frame: start index, end index (one past the CRC), bytes. -/
structure Candidate where
  start : Nat
  stop : Nat
  frameBuf : List Nat
deriving DecidableEq

/-- The scan loop of `scanFramesV2`, with an explicit fuel argument so the
definition computes by structural recursion; the scan position `i` advances
by at least one per step, so fuel `buf.length` suffices from position 0
(`scanFrom` below packages this). -/
def scanGo : Nat → List Nat → Nat → List Candidate
  | 0, _, _ => []
  | fuel + 1, buf, i =>
    if i < buf.length then
      if buf.getD i 0 ≠ 0xFD then scanGo fuel buf (i + 1)
      else if i + 10 > buf.length then []
      else
        let len := buf.getD (i + 1) 0
        let frameLen := 10 + len + 2
        if i + frameLen > buf.length then []
        else
          { start := i, stop := i + frameLen, frameBuf := (buf.drop i).take frameLen } ::
            scanGo fuel buf (i + frameLen)
    else []

/-- The scan of `buf` starting at position `i`. -/
def scanFrom (buf : List Nat) (i : Nat) : List Candidate :=
  scanGo (buf.length - i) buf i

/-- `scanFramesV2(buf)`: all candidate frames of one left-to-right scan. -/
def scanFramesV2 (buf : List Nat) : List Candidate :=
  scanFrom buf 0

/-! ## mavlink-io receive buffer policy (`handleIncoming`) -/

/-- JS `buf.lastIndexOf(b)`: the index of the last occurrence of `b`, or
`none` (JS `-1`) when `b` does not occur. -/
def lastIdxOf (b : Nat) : List Nat → Option Nat
  | [] => none
  | x :: xs =>
    match lastIdxOf b xs with
    | some j => some (j + 1)
    | none => if x == b then some 0 else none

/-- The `rxBuf` kept by `handleIncoming` after appending `chunk` and
scanning: consumed up to the end of the last emitted frame; otherwise, once
the buffer exceeds 2048 bytes, cut at the **last** `0xFD` byte
(`rxBuf.lastIndexOf(0xFD)`), or emptied when no marker exists. (The
`catch` path around the scan is unreachable in the embedding: the scan is
total.) -/
def handleIncoming (rxBuf chunk : List Nat) : List Nat :=
  let buf := rxBuf ++ chunk
  let frames := scanFramesV2 buf
  let lastEnd := (frames.map (fun c => c.stop)).foldl (fun _ e => e) 0
  if lastEnd > 0 then buf.drop lastEnd
  else if buf.length > 2048 then
    match lastIdxOf 0xFD buf with
    | some idx => buf.drop idx
    | none => []
  else buf

/-! ## mavlink-parse dispatch (the per-frame body of `MavlinkParseNode`) -/

/-- The message object `mavlink-parse` emits for one candidate frame. -/
structure ParseOut where
  msgid : Nat
  seq : Nat
  sysid : Nat
  compid : Nat
  incompatFlags : Nat
  compatFlags : Nat
  checksumOk : Bool
  name : Option String
  payloadRaw : List Nat
  payloadOut : Sum (List Nat) (List (String × JSValue))
deriving DecidableEq

/-- The declared payload length byte `frame[1]` of a candidate frame. -/
def frameLenB (frame : List Nat) : Nat := frame.getD 1 0

/-- `frame.subarray(10, 10 + len)`: the payload bytes of a candidate frame. -/
def framePayload (frame : List Nat) : List Nat :=
  (frame.drop 10).take (frameLenB frame)

/-- `frame[7] | (frame[8] << 8) | (frame[9] << 16)`: the 24-bit message id. -/
def frameMsgid (frame : List Nat) : Nat :=
  frame.getD 7 0 + 256 * frame.getD 8 0 + 65536 * frame.getD 9 0

/-- `frame.readUInt16LE(10 + len)`: the received CRC field. -/
def frameCrcRx (frame : List Nat) : Nat :=
  frame.getD (10 + frameLenB frame) 0 + 256 * frame.getD (10 + frameLenB frame + 1) 0

/-- `Object.values(messages).find(m => m.id === msgid)`: the first schema
entry whose id matches. -/
def frameDefLookup (messages : List (String × MessageDef)) (frame : List Nat) :
    Option MessageDef :=
  (messages.map (fun p => p.2)).find? (fun m => m.id == frameMsgid frame)

/-- The CRC comparison of `MavlinkParseNode`: digest of header bytes 1–9 and
the payload, CRC-extra accumulated, compared to the received field. -/
def frameCrcOk (m : MessageDef) (frame : List Nat) : Bool :=
  crcAccumulate (m.crc % 256)
    (crcX25d ((frame.drop 1).take 9 ++ framePayload frame)) == frameCrcRx frame

/-- The schema-aware per-frame dispatch of `MavlinkParseNode`: header fields
are read off the frame, the first schema entry with a matching id is looked
up, the CRC (with the definition's CRC-extra) is compared against the
trailing little-endian 16-bit field, and the payload is decoded only when a
definition was found and the CRC matched. On decode failure the raw payload
is kept (the `catch (e)` branch), with `checksumOk` still `true` and no
`name`; with no matching definition `checksumOk` is `false`. The frame is
always emitted and nothing throws. -/
def parseFrame (messages : List (String × MessageDef)) (frame : List Nat) : ParseOut :=
  let payload := framePayload frame
  let msgid := frameMsgid frame
  let mdef := frameDefLookup messages frame
  let checksumOk :=
    match mdef with
    | none => false
    | some m => frameCrcOk m frame
  let base : ParseOut :=
    { msgid := msgid, seq := frame.getD 4 0, sysid := frame.getD 5 0,
      compid := frame.getD 6 0, incompatFlags := frame.getD 2 0,
      compatFlags := frame.getD 3 0, checksumOk := checksumOk, name := none,
      payloadRaw := payload, payloadOut := .inl payload }
  match mdef with
  | none => base
  | some m =>
    if checksumOk then
      match unpackPayload m payload with
      | some obj =>
        { base with
            name := (messages.find? (fun p => p.2.id == msgid)).map (fun p => p.1),
            payloadOut := .inr obj }
      | none => base
    else base

/-! ## Value preconditions and expected round-trip results (spec side) -/

/-- "Within the declared width" for one scalar value of type `t`:
the signed/unsigned integer range for the integer types, the bit-pattern
range for `float`/`double`, and for the 64-bit types the non-negative part
of the safe integer range `[0, 2^53)` (the source's `int64_t` writer rejects
every negative value, see `int64_negative_write_throws`). -/
def inRangeB (t : String) (v : Int) : Bool :=
  match t with
  | "char" => decide (-128 ≤ v ∧ v ≤ 127)
  | "int8_t" => decide (-128 ≤ v ∧ v ≤ 127)
  | "uint8_t" => decide (0 ≤ v ∧ v ≤ 255)
  | "int16_t" => decide (-32768 ≤ v ∧ v ≤ 32767)
  | "uint16_t" => decide (0 ≤ v ∧ v ≤ 65535)
  | "int32_t" => decide (-(2 ^ 31) ≤ v ∧ v ≤ 2 ^ 31 - 1)
  | "uint32_t" => decide (0 ≤ v ∧ v ≤ 2 ^ 32 - 1)
  | "float" => decide (0 ≤ v ∧ v < 2 ^ 32)
  | "int64_t" => decide (0 ≤ v ∧ v < 2 ^ 53)
  | "uint64_t" => decide (0 ≤ v ∧ v < 2 ^ 53)
  | "double" => decide (0 ≤ v ∧ v < 2 ^ 64)
  | _ => false

/-- The value supplied for field `f` is of the shape the field expects and
within its declared width: a string of bytes for `char[n]`, an array of
in-range numbers for a numeric array, an in-range number for a scalar; a
missing entry is always acceptable (it packs as zero / empty). -/
def fieldOkB (values : List (String × JSValue)) (f : FieldDef) : Bool :=
  if f.arrayLen ≠ 0 ∧ f.type = "char" then
    match lookupVal values f.name with
    | none => true
    | some (.str s) => s.all (fun b => decide (b < 256))
    | some _ => false
  else if f.arrayLen ≠ 0 then
    match lookupVal values f.name with
    | none => true
    | some (.arr vs) => vs.all (fun v => inRangeB f.type v)
    | some _ => false
  else
    match lookupVal values f.name with
    | none => true
    | some (.num v) => inRangeB f.type v
    | some _ => false

/-- The value the round-trip claim predicts for field `f`: the scalar value
(zero when omitted); the numeric array padded with zeros to the declared
length (zero where the mapping omitted an entry or trailing elements); the
original string truncated to the declared length and trimmed at the first
zero byte. -/
def expectedVal (values : List (String × JSValue)) (f : FieldDef) : JSValue :=
  if f.arrayLen ≠ 0 ∧ f.type = "char" then
    let s := match lookupVal values f.name with
      | some (.str s) => s
      | _ => []
    .str ((s.take f.arrayLen).takeWhile (fun b => b ≠ 0))
  else if f.arrayLen ≠ 0 then
    let vs := match lookupVal values f.name with
      | some (.arr vs) => vs
      | _ => []
    .arr ((List.range f.arrayLen).map (fun i => vs.getD i 0))
  else
    let v := match lookupVal values f.name with
      | some (.num v) => v
      | _ => 0
    .num v

/-! # Theorems -/

theorem leBytes_length (k n : Nat) : (leBytes k n).length = k := by
  induction k generalizing n with
  | zero => rfl
  | succ k ih => simp [leBytes, ih]

theorem leNat_leBytes (k n : Nat) : leNat (leBytes k n) = n % 256 ^ k := by
  induction k generalizing n with
  | zero => simp [leBytes, leNat, Nat.mod_one]
  | succ k ih =>
    simp only [leBytes, leNat, ih]
    rw [pow_succ', Nat.mod_mul]

theorem leBytes_lt (k n : Nat) : ∀ b ∈ leBytes k n, b < 256 := by
  induction k generalizing n with
  | zero => intro b hb; simp [leBytes] at hb
  | succ k ih =>
    intro b hb
    simp only [leBytes, List.mem_cons] at hb
    rcases hb with h | h
    · omega
    · exact ih _ _ h

theorem leNat_append (a b : List Nat) :
    leNat (a ++ b) = leNat a + 256 ^ a.length * leNat b := by
  induction a with
  | nil => simp [leNat]
  | cons x xs ih =>
    show x + 256 * leNat (xs ++ b) = x + 256 * leNat xs + 256 ^ (xs.length + 1) * leNat b
    rw [ih, pow_succ]
    ring

theorem jsNumberOfBigInt_safe (v : Int) (h : v.natAbs < 2 ^ 53) :
    jsNumberOfBigInt v = v := by
  simp only [jsNumberOfBigInt]
  rw [if_pos h]

theorem crcAccumulate_lt (byte crc : Nat) : crcAccumulate byte crc < 65536 := by
  simp only [crcAccumulate]
  exact Nat.lt_of_le_of_lt Nat.and_le_right (by norm_num)

theorem and_255_eq_mod (x : Nat) : x &&& 255 = x % 256 := by
  have := Nat.and_pow_two_sub_one_eq_mod x 8
  norm_num at this
  exact this

theorem and_65535_eq_mod (x : Nat) : x &&& 65535 = x % 65536 := by
  have := Nat.and_pow_two_sub_one_eq_mod x 16
  norm_num at this
  exact this

theorem crc_foldl_lt (bytes : List Nat) (seed : Nat) (h : seed < 65536) :
    bytes.foldl (fun crc b => crcAccumulate b crc) seed < 65536 := by
  induction bytes generalizing seed with
  | nil => exact h
  | cons b bs ih => exact ih _ (crcAccumulate_lt b seed)

/-- C3: `crcAccumulate` is exactly the X.25/MCRF4XX step
(`tmp = b XOR low8(crc)`, `tmp = (tmp XOR (tmp << 4)) & 0xFF`,
`((crc >> 8) XOR (tmp << 8) XOR (tmp << 3) XOR (tmp >> 4)) & 0xFFFF`), and
`crcX25` is the left fold of `crcAccumulate` over the bytes starting from the
seed, whose source default is `0xFFFF`; both are pure functions of their
inputs (they are `def`s over their arguments alone). -/
theorem crc_spec :
    (∀ b crc, b < 256 → crc < 65536 →
      crcAccumulate b crc =
        (let tmp0 := b ^^^ crc % 256
         let tmp := (tmp0 ^^^ tmp0 <<< 4) % 256
         (crc >>> 8 ^^^ tmp <<< 8 ^^^ tmp <<< 3 ^^^ tmp >>> 4) % 65536)) ∧
    (∀ bytes seed, seed < 65536 →
      crcX25 bytes seed = bytes.foldl (fun crc b => crcAccumulate b crc) seed) ∧
    (∀ bytes, crcX25d bytes = crcX25 bytes 0xFFFF) := by
  refine ⟨?_, ?_, fun _ => rfl⟩
  · intro b crc hb hcrc
    simp only [crcAccumulate, and_255_eq_mod, and_65535_eq_mod]
    have hsh : (crc >>> 8) % 65536 = crc >>> 8 := by
      rw [Nat.shiftRight_eq_div_pow]
      exact Nat.mod_eq_of_lt (by omega)
    rw [hsh]
  · intro bytes seed h
    simp only [crcX25, and_65535_eq_mod]
    exact Nat.mod_eq_of_lt (crc_foldl_lt bytes seed h)

/-- Concrete instance of `crc_spec`: the step formula at `b = 0x37`,
`crc = 0xFFFF`, and the fold characterization on the bytes `[1, 2, 3]` from
seed `0x1234`. -/
theorem crc_spec_witness :
    (0x37 < 256 ∧ 0xFFFF < 65536 ∧ 0x1234 < 65536) ∧
    crcAccumulate 0x37 0xFFFF =
      (let tmp0 := 0x37 ^^^ 0xFFFF % 256
       let tmp := (tmp0 ^^^ tmp0 <<< 4) % 256
       (0xFFFF >>> 8 ^^^ tmp <<< 8 ^^^ tmp <<< 3 ^^^ tmp >>> 4) % 65536) ∧
    crcX25 [1, 2, 3] 0x1234 =
      [1, 2, 3].foldl (fun crc b => crcAccumulate b crc) 0x1234 :=
  ⟨by norm_num,
   crc_spec.1 0x37 0xFFFF (by norm_num) (by norm_num),
   crc_spec.2.1 [1, 2, 3] 0x1234 (by norm_num)⟩

/-! ## Sorting lemmas (stable descending sort) -/

theorem insertDescBy_perm (key : α → Nat) (x : α) (l : List α) :
    List.Perm (insertDescBy key x l) (x :: l) := by
  induction l with
  | nil => exact List.Perm.refl _
  | cons y ys ih =>
    simp only [insertDescBy]
    by_cases h : key x < key y
    · rw [if_pos h]
      exact (ih.cons y).trans (List.Perm.swap x y ys)
    · rw [if_neg h]

theorem stableSortDescBy_perm (key : α → Nat) (l : List α) :
    List.Perm (stableSortDescBy key l) l := by
  induction l with
  | nil => exact List.Perm.refl _
  | cons x xs ih =>
    exact (insertDescBy_perm key x _).trans (ih.cons x)

theorem mem_insertDescBy (key : α → Nat) (x a : α) (l : List α) :
    a ∈ insertDescBy key x l ↔ a = x ∨ a ∈ l := by
  rw [(insertDescBy_perm key x l).mem_iff]
  simp

theorem map_insertDescBy (key : α → Nat) (g : β → α) (x : β) (l : List β) :
    (insertDescBy (fun p => key (g p)) x l).map g = insertDescBy key (g x) (l.map g) := by
  induction l with
  | nil => rfl
  | cons y ys ih =>
    simp only [insertDescBy, List.map_cons]
    by_cases h : key (g x) < key (g y)
    · rw [if_pos h, if_pos h, List.map_cons, ih]
    · rw [if_neg h, if_neg h]
      rfl

theorem map_stableSortDescBy (key : α → Nat) (g : β → α) (l : List β) :
    (stableSortDescBy (fun p => key (g p)) l).map g = stableSortDescBy key (l.map g) := by
  induction l with
  | nil => rfl
  | cons x xs ih =>
    simp only [stableSortDescBy, List.foldr_cons, List.map_cons] at *
    rw [map_insertDescBy, ih]

theorem fst_ge_of_mem_enumFrom {p : Nat × α} {n : Nat} {l : List α}
    (h : p ∈ List.enumFrom n l) : n ≤ p.1 := by
  induction l generalizing n with
  | nil => simp [List.enumFrom] at h
  | cons a as ih =>
    rcases List.mem_cons.1 h with h1 | h1
    · subst h1; exact Nat.le_refl _
    · exact Nat.le_of_succ_le (ih h1)

/-- The ordering a stable descending key sort realizes on an indexed list:
strictly larger key first, ties broken by the original position. -/
def StableDescRel (key : α → Nat) (a b : Nat × α) : Prop :=
  key b.2 < key a.2 ∨ (key a.2 = key b.2 ∧ a.1 < b.1)

theorem insertDescBy_pairwise (key : α → Nat) (x : Nat × α) (l : List (Nat × α))
    (hl : l.Pairwise (StableDescRel key))
    (hidx : ∀ p ∈ l, x.1 < p.1) :
    (insertDescBy (fun p => key p.2) x l).Pairwise (StableDescRel key) := by
  induction l with
  | nil => simp [insertDescBy]
  | cons y ys ih =>
    rw [List.pairwise_cons] at hl
    simp only [insertDescBy]
    by_cases h : key x.2 < key y.2
    · rw [if_pos h]
      rw [List.pairwise_cons]
      constructor
      · intro z hz
        rcases (mem_insertDescBy _ x z ys).1 hz with rfl | hz2
        · exact Or.inl h
        · exact hl.1 z hz2
      · exact ih hl.2 (fun p hp => hidx p (List.mem_cons_of_mem y hp))
    · rw [if_neg h]
      rw [List.pairwise_cons]
      refine ⟨?_, List.Pairwise.cons hl.1 hl.2⟩
      intro z hz
      simp only [StableDescRel]
      rcases List.mem_cons.1 hz with hzy | hz2
      · have h2 := hidx y (List.mem_cons_self y ys)
        rw [hzy]
        omega
      · have h3 := hl.1 z hz2
        have h4 := hidx z (List.mem_cons_of_mem y hz2)
        simp only [StableDescRel] at h3
        omega

theorem stableSortDescBy_enumFrom_pairwise (key : α → Nat) (l : List α) (n : Nat) :
    (stableSortDescBy (fun p => key p.2) (List.enumFrom n l)).Pairwise (StableDescRel key) := by
  induction l generalizing n with
  | nil => simp [stableSortDescBy]
  | cons a as ih =>
    have step : stableSortDescBy (fun p => key p.2) (List.enumFrom n (a :: as)) =
        insertDescBy (fun p => key p.2) (n, a)
          (stableSortDescBy (fun p => key p.2) (List.enumFrom (n + 1) as)) := rfl
    rw [step]
    refine insertDescBy_pairwise key (n, a) _ (ih (n + 1)) ?_
    intro p hp
    have hmem : p ∈ List.enumFrom (n + 1) as :=
      (stableSortDescBy_perm (fun p => key p.2) (List.enumFrom (n + 1) as)).mem_iff.1 hp
    exact Nat.lt_of_succ_le (fst_ge_of_mem_enumFrom hmem)

/-- C2: packing and unpacking both traverse `sortFieldsForPacking def.fields`,
and that reordering is the stable descending sort by total field size
(array length × type width): some indexed list `t` projects onto the sorted
result, is a permutation of the indexed original, and is pairwise ordered so
that a strictly larger total size comes first and equal total sizes keep
their original relative order. -/
theorem sortFieldsForPacking_spec (l : List FieldDef) :
    (∀ d values, packPayload d values = packFields values (sortFieldsForPacking d.fields)) ∧
    (∀ d payload, unpackPayload d payload =
      unpackFields payload (sortFieldsForPacking d.fields) 0 []) ∧
    ∃ t : List (Nat × FieldDef),
      t.map Prod.snd = sortFieldsForPacking l ∧
      List.Perm t l.enum ∧
      t.Pairwise (StableDescRel fieldKey) := by
  refine ⟨fun _ _ => rfl, fun _ _ => rfl,
    stableSortDescBy (fun p => fieldKey p.2) l.enum, ?_, ?_, ?_⟩
  · rw [map_stableSortDescBy fieldKey Prod.snd l.enum, List.enum_map_snd]
    rfl
  · exact stableSortDescBy_perm _ _
  · exact stableSortDescBy_enumFrom_pairwise fieldKey l 0

/-! ## Scalar write/read round-trip -/

theorem readScalarLE_at (t : String) (w : Nat) (hw : typeSize t = some w)
    (bs pre suf : List Nat) (hlen : bs.length = w) :
    readScalarLE (pre ++ bs ++ suf) pre.length t =
      some (decodeScalar t bs, pre.length + w) := by
  simp only [readScalarLE, hw]
  have hdrop : (pre ++ bs ++ suf).drop pre.length = bs ++ suf := by
    rw [List.append_assoc, List.drop_left]
  have htake : (bs ++ suf).take w = bs := by
    rw [← hlen, List.take_left]
  have hle : pre.length + w ≤ (pre ++ bs ++ suf).length := by
    simp only [List.length_append, hlen]
    omega
  rw [if_pos hle, hdrop, htake]

theorem take_append_of_length (a b : List α) (n : Nat) (h : a.length = n) :
    (a ++ b).take n = a := by
  subst h
  exact List.take_left a b

theorem drop_append_of_length (a b : List α) (n : Nat) (h : a.length = n) :
    (a ++ b).drop n = b := by
  subst h
  exact List.drop_left a b

theorem writeScalar_roundtrip (t : String) (v : Int) (w : Nat)
    (hw : typeSize t = some w) (hv : inRangeB t v = true) :
    ∃ bs, writeScalarLE t v = some bs ∧ bs.length = w ∧ (∀ b ∈ bs, b < 256) ∧
      decodeScalar t bs = v := by
  simp only [typeSize] at hw
  split at hw
  -- char (signed 1-byte)
  · injection hw with h
    subst h
    simp only [inRangeB, decide_eq_true_eq] at hv
    refine ⟨leBytes 1 (v % (2 ^ (8 * 1)) : Int).toNat, ?_, leBytes_length _ _,
      leBytes_lt _ _, ?_⟩
    · simp only [writeScalarLE, writeSignedK]
      rw [if_pos (by norm_num <;> omega)]
    · simp only [decodeScalar, leNat_leBytes, toSigned]
      norm_num
      split <;> omega
  -- int8_t (signed 1-byte)
  · injection hw with h
    subst h
    simp only [inRangeB, decide_eq_true_eq] at hv
    refine ⟨leBytes 1 (v % (2 ^ (8 * 1)) : Int).toNat, ?_, leBytes_length _ _,
      leBytes_lt _ _, ?_⟩
    · simp only [writeScalarLE, writeSignedK]
      rw [if_pos (by norm_num <;> omega)]
    · simp only [decodeScalar, leNat_leBytes, toSigned]
      norm_num
      split <;> omega
  -- uint8_t (unsigned 1-byte)
  · injection hw with h
    subst h
    simp only [inRangeB, decide_eq_true_eq] at hv
    refine ⟨leBytes 1 v.toNat, ?_, leBytes_length _ _, leBytes_lt _ _, ?_⟩
    · simp only [writeScalarLE, writeUnsignedK]
      rw [if_pos (by norm_num <;> omega)]
    · simp only [decodeScalar, leNat_leBytes]
      norm_num
      omega
  -- int16_t (signed 2-byte)
  · injection hw with h
    subst h
    simp only [inRangeB, decide_eq_true_eq] at hv
    refine ⟨leBytes 2 (v % (2 ^ (8 * 2)) : Int).toNat, ?_, leBytes_length _ _,
      leBytes_lt _ _, ?_⟩
    · simp only [writeScalarLE, writeSignedK]
      rw [if_pos (by norm_num <;> omega)]
    · simp only [decodeScalar, leNat_leBytes, toSigned]
      norm_num
      split <;> omega
  -- uint16_t (unsigned 2-byte)
  · injection hw with h
    subst h
    simp only [inRangeB, decide_eq_true_eq] at hv
    refine ⟨leBytes 2 v.toNat, ?_, leBytes_length _ _, leBytes_lt _ _, ?_⟩
    · simp only [writeScalarLE, writeUnsignedK]
      rw [if_pos (by norm_num <;> omega)]
    · simp only [decodeScalar, leNat_leBytes]
      norm_num
      omega
  -- int32_t (signed 4-byte)
  · injection hw with h
    subst h
    simp only [inRangeB, decide_eq_true_eq] at hv
    refine ⟨leBytes 4 (v % (2 ^ (8 * 4)) : Int).toNat, ?_, leBytes_length _ _,
      leBytes_lt _ _, ?_⟩
    · simp only [writeScalarLE, writeSignedK]
      rw [if_pos (by norm_num <;> omega)]
    · simp only [decodeScalar, leNat_leBytes, toSigned]
      norm_num
      split <;> omega
  -- uint32_t (unsigned 4-byte)
  · injection hw with h
    subst h
    simp only [inRangeB, decide_eq_true_eq] at hv
    refine ⟨leBytes 4 v.toNat, ?_, leBytes_length _ _, leBytes_lt _ _, ?_⟩
    · simp only [writeScalarLE, writeUnsignedK]
      rw [if_pos (by norm_num <;> omega)]
    · simp only [decodeScalar, leNat_leBytes]
      norm_num
      omega
  -- float (bit pattern, 4 bytes)
  · injection hw with h
    subst h
    simp only [inRangeB, decide_eq_true_eq] at hv
    refine ⟨leBytes 4 (v % (2 ^ 32) : Int).toNat, rfl, leBytes_length _ _,
      leBytes_lt _ _, ?_⟩
    simp only [decodeScalar, leNat_leBytes]
    norm_num
    omega
  -- int64_t
  · injection hw with h
    subst h
    simp only [inRangeB, decide_eq_true_eq] at hv
    have hhi : ((v / 2 ^ 32) % (2 ^ 32) : Int).toNat ≤ 2 ^ 31 - 1 := by
      norm_num
      omega
    refine ⟨leBytes 4 (v % (2 ^ 32) : Int).toNat ++
      leBytes 4 ((v / 2 ^ 32) % (2 ^ 32) : Int).toNat, ?_, ?_, ?_, ?_⟩
    · simp only [writeScalarLE]
      rw [if_pos hhi]
    · simp [List.length_append, leBytes_length]
    · intro b hb
      rcases List.mem_append.1 hb with h | h
      · exact leBytes_lt _ _ _ h
      · exact leBytes_lt _ _ _ h
    · simp only [decodeScalar]
      rw [take_append_of_length _ _ _ (leBytes_length _ _),
        drop_append_of_length _ _ _ (leBytes_length _ _)]
      simp only [leNat_leBytes, toSigned]
      rw [jsNumberOfBigInt_safe]
      · norm_num
        split <;> omega
      · norm_num
        split <;> omega
  -- uint64_t
  · injection hw with h
    subst h
    simp only [inRangeB, decide_eq_true_eq] at hv
    refine ⟨leBytes 4 (v % (2 ^ 32) : Int).toNat ++
      leBytes 4 ((v / 2 ^ 32) % (2 ^ 32) : Int).toNat, rfl, ?_, ?_, ?_⟩
    · simp [List.length_append, leBytes_length]
    · intro b hb
      rcases List.mem_append.1 hb with h | h
      · exact leBytes_lt _ _ _ h
      · exact leBytes_lt _ _ _ h
    · simp only [decodeScalar, leNat_append, leNat_leBytes, leBytes_length]
      rw [jsNumberOfBigInt_safe]
      · norm_num
        omega
      · norm_num
        omega
  -- double (bit pattern, 8 bytes)
  · injection hw with h
    subst h
    simp only [inRangeB, decide_eq_true_eq] at hv
    refine ⟨leBytes 8 (v % (2 ^ 64) : Int).toNat, rfl, leBytes_length _ _,
      leBytes_lt _ _, ?_⟩
    simp only [decodeScalar, leNat_leBytes]
    norm_num
    omega
  -- unknown tag: contradiction
  · exact absurd hw (by simp)

theorem takeWhile_replicate_zero (k : Nat) :
    (List.replicate k 0).takeWhile (fun b => b ≠ 0) = ([] : List Nat) := by
  cases k with
  | zero => rfl
  | succ k => simp [List.replicate, List.takeWhile_cons]

theorem takeWhile_append_replicate_zero (a : List Nat) (k : Nat) :
    (a ++ List.replicate k 0).takeWhile (fun b => b ≠ 0) =
      a.takeWhile (fun b => b ≠ 0) := by
  induction a with
  | nil => simpa using takeWhile_replicate_zero k
  | cons x xs ih =>
    simp only [List.cons_append, List.takeWhile_cons, ih]

theorem inRangeB_zero (t : String) (w : Nat) (hw : typeSize t = some w) :
    inRangeB t 0 = true := by
  simp only [typeSize] at hw
  split at hw
  all_goals first
    | decide
    | exact absurd hw (by simp)

theorem packList_ok (t : String) (w : Nat) (hw : typeSize t = some w)
    (vs : List Int) (hall : ∀ v ∈ vs, inRangeB t v = true) :
    ∃ bs, packList t vs = some bs ∧ bs.length = w * vs.length ∧ (∀ b ∈ bs, b < 256) ∧
      ∀ pre suf : List Nat, readList (pre ++ bs ++ suf) t vs.length pre.length =
        some (vs, pre.length + w * vs.length) := by
  induction vs with
  | nil =>
    refine ⟨[], rfl, by simp, by simp, fun pre suf => ?_⟩
    simp [readList]
  | cons v rest ih =>
    obtain ⟨b, hb, hblen, hbbytes, hbdec⟩ :=
      writeScalar_roundtrip t v w hw (hall v (List.mem_cons_self v rest))
    obtain ⟨bsr, hbsr, hlenr, hbytesr, hreadr⟩ :=
      ih (fun u hu => hall u (List.mem_cons_of_mem v hu))
    refine ⟨b ++ bsr, ?_, ?_, ?_, ?_⟩
    · simp [packList, hb, hbsr]
    · simp only [List.length_append, hblen, hlenr, List.length_cons]
      ring
    · intro x hx
      rcases List.mem_append.1 hx with h | h
      · exact hbbytes x h
      · exact hbytesr x h
    · intro pre suf
      have hassoc : pre ++ (b ++ bsr) ++ suf = pre ++ b ++ (bsr ++ suf) := by
        simp [List.append_assoc]
      simp only [List.length_cons, readList, hassoc]
      rw [readScalarLE_at t w hw b pre (bsr ++ suf) hblen]
      have h2 := hreadr (pre ++ b) suf
      rw [List.append_assoc (pre ++ b) bsr suf] at h2
      simp only [List.length_append, hblen] at h2
      simp only [h2, hbdec]
      have harith : pre.length + w + w * rest.length = pre.length + w * (rest.length + 1) := by
        ring
      rw [harith]

theorem unpackField_char (f : FieldDef) (hc : f.arrayLen ≠ 0 ∧ f.type = "char")
    (pre bs suf : List Nat) (hlen : bs.length = f.arrayLen) :
    unpackField (pre ++ bs ++ suf) pre.length f =
      some (.str (bs.takeWhile (fun b => b ≠ 0)), pre.length + f.arrayLen) := by
  simp only [unpackField, if_pos hc]
  have hdrop : (pre ++ bs ++ suf).drop pre.length = bs ++ suf := by
    rw [List.append_assoc, List.drop_left]
  rw [hdrop, take_append_of_length _ _ _ hlen]

theorem packField_ok (values : List (String × JSValue)) (f : FieldDef) (w : Nat)
    (hw : typeSize f.type = some w) (hok : fieldOkB values f = true) :
    ∃ bs, packField values f = some bs ∧ bs.length = fieldSize f ∧ (∀ b ∈ bs, b < 256) ∧
      ∀ pre suf : List Nat, unpackField (pre ++ bs ++ suf) pre.length f =
        some (expectedVal values f, pre.length + fieldSize f) := by
  by_cases hc : f.arrayLen ≠ 0 ∧ f.type = "char"
  · -- char[n] string field
    have hsize : fieldSize f = f.arrayLen := by
      simp only [fieldSize, sizeofT, hc.2, typeSize, Option.getD_some, orOne, if_neg hc.1]
      omega
    simp only [fieldOkB, if_pos hc] at hok
    rcases hl : lookupVal values f.name with _ | val
    all_goals rw [hl] at hok
    · -- value absent: the empty string is written
      refine ⟨List.replicate f.arrayLen 0, ?_, ?_, ?_, ?_⟩
      · simp [packField, if_pos hc, hl]
      · simp [hsize]
      · intro b hb
        have := List.eq_of_mem_replicate hb
        omega
      · intro pre suf
        rw [unpackField_char f hc pre _ suf (by simp), hsize]
        simp [expectedVal, if_pos hc, hl, takeWhile_replicate_zero]
    · -- value present: must be a string of bytes
      rcases val with v | vs | s
      · exact absurd hok (by simp)
      · exact absurd hok (by simp)
      simp only [List.all_eq_true, decide_eq_true_eq] at hok
      refine ⟨s.take f.arrayLen ++ List.replicate (f.arrayLen - s.length) 0, ?_, ?_, ?_, ?_⟩
      · simp [packField, if_pos hc, hl, jsToString]
      · simp only [List.length_append, List.length_take, List.length_replicate, hsize]
        omega
      · intro b hb
        rcases List.mem_append.1 hb with h | h
        · exact hok b (List.mem_of_mem_take h)
        · have := List.eq_of_mem_replicate h
          omega
      · intro pre suf
        rw [unpackField_char f hc pre _ suf
          (by simp only [List.length_append, List.length_take, List.length_replicate]; omega),
          hsize]
        rw [takeWhile_append_replicate_zero]
        simp [expectedVal, if_pos hc, hl]
  · by_cases ha : f.arrayLen ≠ 0
    · -- numeric fixed array
      have hsize : fieldSize f = w * f.arrayLen := by
        simp only [fieldSize, sizeofT, hw, Option.getD_some, orOne, if_neg ha]
      simp only [fieldOkB, if_neg hc, if_pos ha] at hok
      have harr : ∃ arr : List Int, (∀ v ∈ arr, inRangeB f.type v = true) ∧
          packField values f =
            packList f.type ((List.range f.arrayLen).map (fun i => arr.getD i 0)) ∧
          expectedVal values f =
            .arr ((List.range f.arrayLen).map (fun i => arr.getD i 0)) := by
        rcases hl : lookupVal values f.name with _ | val
        all_goals rw [hl] at hok
        · exact ⟨[], by simp, by simp [packField, if_neg hc, if_pos ha, hl],
            by simp [expectedVal, if_neg hc, if_pos ha, hl]⟩
        · rcases val with v | vs | s
          · exact absurd hok (by simp)
          · simp only [List.all_eq_true] at hok
            exact ⟨vs, hok, by simp [packField, if_neg hc, if_pos ha, hl],
              by simp [expectedVal, if_neg hc, if_pos ha, hl]⟩
          · exact absurd hok (by simp)
      obtain ⟨arr, harng, hpk, hexp⟩ := harr
      have helems : ∀ v ∈ (List.range f.arrayLen).map (fun i => arr.getD i 0),
          inRangeB f.type v = true := by
        intro v hv
        rcases List.mem_map.1 hv with ⟨i, _, rfl⟩
        rcases Nat.lt_or_ge i arr.length with hi | hi
        · rw [List.getD_eq_getElem arr 0 hi]
          exact harng _ (List.getElem_mem hi)
        · rw [List.getD_eq_default arr 0 hi]
          exact inRangeB_zero f.type w hw
      obtain ⟨bs, hbs, hlen, hbytes, hread⟩ :=
        packList_ok f.type w hw ((List.range f.arrayLen).map (fun i => arr.getD i 0)) helems
      refine ⟨bs, by rw [hpk, hbs], ?_, hbytes, ?_⟩
      · rw [hlen, hsize]
        simp
      · intro pre suf
        have h1 := hread pre suf
        simp only [List.length_map, List.length_range] at h1
        simp only [unpackField, if_neg hc, if_pos ha, h1, hexp, hsize]
    · -- scalar field
      have hne : f.arrayLen = 0 := by omega
      have hsize : fieldSize f = w := by
        norm_num [fieldSize, sizeofT, hw, orOne, hne]
      simp only [fieldOkB, if_neg hc, if_neg ha] at hok
      have hval : ∃ v : Int, inRangeB f.type v = true ∧
          packField values f = writeScalarLE f.type v ∧
          expectedVal values f = .num v := by
        rcases hl : lookupVal values f.name with _ | val
        all_goals rw [hl] at hok
        · exact ⟨0, inRangeB_zero f.type w hw,
            by simp [packField, if_neg hc, if_neg ha, hl],
            by simp [expectedVal, if_neg hc, if_neg ha, hl]⟩
        · rcases val with v | vs | s
          · exact ⟨v, hok, by simp [packField, if_neg hc, if_neg ha, hl],
              by simp [expectedVal, if_neg hc, if_neg ha, hl]⟩
          · exact absurd hok (by simp)
          · exact absurd hok (by simp)
      obtain ⟨v, hvr, hpk, hexp⟩ := hval
      obtain ⟨bs, hbs, hlen, hbytes, hdec⟩ := writeScalar_roundtrip f.type v w hw hvr
      refine ⟨bs, by rw [hpk, hbs], by rw [hlen, hsize], hbytes, ?_⟩
      intro pre suf
      simp only [unpackField, if_neg hc, if_neg ha,
        readScalarLE_at f.type w hw bs pre suf hlen, hdec, hexp, hsize]

theorem packFields_ok (values : List (String × JSValue)) (fs : List FieldDef)
    (h : ∀ f ∈ fs, (typeSize f.type).isSome ∧ fieldOkB values f = true) :
    ∃ bs, packFields values fs = some bs ∧ bs.length = (fs.map fieldSize).sum ∧
      (∀ b ∈ bs, b < 256) ∧
      ∀ pre suf obj, unpackFields (pre ++ bs ++ suf) fs pre.length obj =
        some (obj ++ fs.map (fun f => (f.name, expectedVal values f))) := by
  induction fs with
  | nil =>
    refine ⟨[], rfl, by simp, by simp, fun pre suf obj => ?_⟩
    simp [unpackFields]
  | cons f fs ih =>
    have hf := h f (List.mem_cons_self f fs)
    obtain ⟨w, hw⟩ := Option.isSome_iff_exists.1 hf.1
    obtain ⟨b, hb, hblen, hbbytes, hbun⟩ := packField_ok values f w hw hf.2
    obtain ⟨rest, hrest, hrlen, hrbytes, hrun⟩ :=
      ih (fun g hg => h g (List.mem_cons_of_mem f hg))
    refine ⟨b ++ rest, ?_, ?_, ?_, ?_⟩
    · simp [packFields, hb, hrest]
    · simp [List.length_append, hblen, hrlen]
    · intro x hx
      rcases List.mem_append.1 hx with hx1 | hx1
      · exact hbbytes x hx1
      · exact hrbytes x hx1
    · intro pre suf obj
      have hassoc : pre ++ (b ++ rest) ++ suf = pre ++ b ++ (rest ++ suf) := by
        simp [List.append_assoc]
      simp only [unpackFields, hassoc]
      rw [hbun pre (rest ++ suf)]
      have h2 := hrun (pre ++ b) suf (obj ++ [(f.name, expectedVal values f)])
      rw [List.append_assoc (pre ++ b) rest suf] at h2
      simp only [List.length_append, hblen] at h2
      simp only [h2]
      simp [List.append_assoc]

theorem mem_sortFieldsForPacking (l : List FieldDef) (f : FieldDef) :
    f ∈ sortFieldsForPacking l ↔ f ∈ l :=
  (stableSortDescBy_perm fieldKey l).mem_iff

theorem sum_sortFieldsForPacking (l : List FieldDef) :
    ((sortFieldsForPacking l).map fieldSize).sum = (l.map fieldSize).sum :=
  ((stableSortDescBy_perm fieldKey l).map fieldSize).sum_eq

theorem nodup_names_sortFieldsForPacking (l : List FieldDef)
    (h : (l.map FieldDef.name).Nodup) :
    ((sortFieldsForPacking l).map FieldDef.name).Nodup :=
  (((stableSortDescBy_perm fieldKey l).map FieldDef.name).nodup_iff).2 h

theorem lookup_expected (g : FieldDef → JSValue) (l : List FieldDef) (f : FieldDef)
    (hnd : (l.map FieldDef.name).Nodup) (hf : f ∈ l) :
    lookupVal (l.map (fun x => (x.name, g x))) f.name = some (g f) := by
  induction l with
  | nil => simp at hf
  | cons a as ih =>
    simp only [List.map_cons, List.nodup_cons] at hnd
    rcases List.mem_cons.1 hf with rfl | hf2
    · simp [lookupVal]
    · have hne : ¬(a.name == f.name) = true := by
        simp only [beq_iff_eq]
        intro he
        exact hnd.1 (he ▸ List.mem_map_of_mem FieldDef.name hf2)
      have hih := ih hnd.2 hf2
      simp only [lookupVal, List.map_cons, List.find?_cons] at hih ⊢
      rw [Bool.of_not_eq_true hne]
      exact hih

/-- C1 (corrected): round-trip of `unpackPayload ∘ packPayload`. For every
message definition whose field type tags are all in the scalar type table and
whose field names are distinct, and every type-correct field-value mapping
within the declared widths — with the 64-bit integer values restricted to the
**non-negative** safe integers `[0, 2^53)`, the restriction forced by
`pack_unpack_roundtrip_counterexample` — packing succeeds, and unpacking the
packed payload reproduces every scalar and numeric-array field exactly (with
zero where the mapping omitted an entry or trailing array elements) and every
char-array field as the original string truncated to the declared length and
trimmed at the first zero byte. -/
theorem pack_unpack_roundtrip (d : MessageDef) (values : List (String × JSValue))
    (htypes : ∀ f ∈ d.fields, (typeSize f.type).isSome = true)
    (hnodup : (d.fields.map FieldDef.name).Nodup)
    (hok : ∀ f ∈ d.fields, fieldOkB values f = true) :
    ∃ payload obj, packPayload d values = some payload ∧
      payload.length = totalSize d ∧
      unpackPayload d payload = some obj ∧
      ∀ f ∈ d.fields, lookupVal obj f.name = some (expectedVal values f) := by
  have hall : ∀ f ∈ sortFieldsForPacking d.fields,
      (typeSize f.type).isSome = true ∧ fieldOkB values f = true := fun f hf =>
    ⟨htypes f ((mem_sortFieldsForPacking _ f).1 hf),
     hok f ((mem_sortFieldsForPacking _ f).1 hf)⟩
  obtain ⟨bs, hbs, hlen, _, hun⟩ := packFields_ok values (sortFieldsForPacking d.fields) hall
  have hun0 := hun [] [] []
  simp only [List.nil_append, List.append_nil, List.length_nil] at hun0
  refine ⟨bs, (sortFieldsForPacking d.fields).map
      (fun f => (f.name, expectedVal values f)), ?_, ?_, ?_, ?_⟩
  · exact hbs
  · rw [hlen, sum_sortFieldsForPacking]
    rfl
  · exact hun0
  · intro f hf
    exact lookup_expected (expectedVal values) (sortFieldsForPacking d.fields) f
      (nodup_names_sortFieldsForPacking _ hnodup) ((mem_sortFieldsForPacking _ f).2 hf)

/-- C1 counterexample: the mapping `{ t: -1 }` for a message with a single
`int64_t` field is within the claim's precondition (`-1` is a safe integer in
the int64 range), yet `packPayload` throws (`none` — the high-half store
`writeInt32LE` rejects the masked word `0xFFFFFFFF`), so
`unpackPayload(def, packPayload(def, values))` cannot reproduce the values. -/
theorem pack_unpack_roundtrip_counterexample :
    (-(2 ^ 53) < (-1 : Int) ∧ (-1 : Int) < 2 ^ 53 ∧ -(2 ^ 63) ≤ (-1 : Int)) ∧
    packPayload { id := 1, crc := 0, fields := [⟨"t", "int64_t", 0⟩] }
      [("t", JSValue.num (-1))] = none := by
  constructor
  · norm_num
  · decide

/-- Concrete instance of `pack_unpack_roundtrip`: a definition with a
`uint8_t` scalar, an `int64_t` scalar, a `char[4]` string and a
`uint16_t[3]` array, packed from a mapping that omits nothing but supplies a
short string and a short array. -/
theorem pack_unpack_roundtrip_witness :
    ((∀ f ∈ ([⟨"u8", "uint8_t", 0⟩, ⟨"i64", "int64_t", 0⟩, ⟨"txt", "char", 4⟩,
        ⟨"a16", "uint16_t", 3⟩] : List FieldDef), (typeSize f.type).isSome = true) ∧
      (([⟨"u8", "uint8_t", 0⟩, ⟨"i64", "int64_t", 0⟩, ⟨"txt", "char", 4⟩,
        ⟨"a16", "uint16_t", 3⟩] : List FieldDef).map FieldDef.name).Nodup) ∧
    (∃ payload obj,
      packPayload { id := 7, crc := 3, fields := [⟨"u8", "uint8_t", 0⟩,
          ⟨"i64", "int64_t", 0⟩, ⟨"txt", "char", 4⟩, ⟨"a16", "uint16_t", 3⟩] }
        [("u8", JSValue.num 200), ("i64", JSValue.num 123456789),
         ("txt", JSValue.str [104, 105]), ("a16", JSValue.arr [1, 2])] = some payload ∧
      payload.length = totalSize { id := 7, crc := 3, fields := [⟨"u8", "uint8_t", 0⟩,
          ⟨"i64", "int64_t", 0⟩, ⟨"txt", "char", 4⟩, ⟨"a16", "uint16_t", 3⟩] } ∧
      unpackPayload { id := 7, crc := 3, fields := [⟨"u8", "uint8_t", 0⟩,
          ⟨"i64", "int64_t", 0⟩, ⟨"txt", "char", 4⟩, ⟨"a16", "uint16_t", 3⟩] }
        payload = some obj ∧
      ∀ f ∈ ([⟨"u8", "uint8_t", 0⟩, ⟨"i64", "int64_t", 0⟩, ⟨"txt", "char", 4⟩,
          ⟨"a16", "uint16_t", 3⟩] : List FieldDef),
        lookupVal obj f.name = some (expectedVal
          [("u8", JSValue.num 200), ("i64", JSValue.num 123456789),
           ("txt", JSValue.str [104, 105]), ("a16", JSValue.arr [1, 2])] f)) :=
  ⟨⟨by decide, by decide⟩,
   pack_unpack_roundtrip _ _ (by decide) (by decide) (by decide)⟩

/-- C6 (code_bug): the failing input. The `int64_t` branch of `writeScalarLE`
masks the high half into `[0, 2^32)` and hands it to `writeInt32LE`, whose
signed 32-bit range check throws for every negative value: packing `-1`
fails. The same bytes are produced without error by the `uint64_t` writer
(identical two's-complement halves, stored with `writeUInt32LE`), and the
`int64_t` **reader** decodes those halves back to exactly `-1`, showing the
claimed behaviour was intended and the signed high-half store is the slip. -/
theorem int64_negative_write_throws :
    writeScalarLE "int64_t" (-1) = none ∧
    writeScalarLE "uint64_t" (-1) =
      some [255, 255, 255, 255, 255, 255, 255, 255] ∧
    decodeScalar "int64_t" [255, 255, 255, 255, 255, 255, 255, 255] = -1 := by
  refine ⟨by decide, by decide, by decide⟩

/-! ## Totality and prefix-dependence of `unpackPayload` -/

theorem readScalarLE_some (buf : List Nat) (off : Nat) (t : String) (w : Nat)
    (hw : typeSize t = some w) (hok : off + w ≤ buf.length) :
    readScalarLE buf off t =
      some (decodeScalar t ((buf.drop off).take w), off + w) := by
  simp only [readScalarLE, hw, if_pos hok]

theorem take_drop_take (buf : List Nat) (off m N : Nat) (h : off + m ≤ N) :
    ((buf.take N).drop off).take m = (buf.drop off).take m := by
  rw [List.drop_take]
  rw [List.take_take]
  congr 1
  omega

theorem readList_total (buf : List Nat) (t : String) (w : Nat)
    (hw : typeSize t = some w) (n : Nat) :
    ∀ (off N : Nat), off + w * n ≤ N → N ≤ buf.length →
    ∃ vs : List Int, readList buf t n off = some (vs, off + w * n) ∧
      readList (buf.take N) t n off = some (vs, off + w * n) := by
  induction n with
  | zero =>
    intro off N _ _
    exact ⟨[], by simp [readList], by simp [readList]⟩
  | succ n ih =>
    intro off N hb hN
    have hmul : w * (n + 1) = w * n + w := Nat.mul_succ w n
    have hw1 : off + w ≤ buf.length := by omega
    have hw2 : off + w ≤ N := by omega
    have hN' : (buf.take N).length = N := by
      rw [List.length_take]
      omega
    obtain ⟨vs, hvs, hvsT⟩ := ih (off + w) N (by omega) hN
    refine ⟨decodeScalar t ((buf.drop off).take w) :: vs, ?_, ?_⟩
    · simp only [readList, readScalarLE_some buf off t w hw hw1, hvs]
      have harith : off + w + w * n = off + w * (n + 1) := by omega
      rw [harith]
    · have hr : readScalarLE (buf.take N) off t =
          some (decodeScalar t ((buf.drop off).take w), off + w) := by
        rw [readScalarLE_some (buf.take N) off t w hw (by omega)]
        rw [take_drop_take buf off w N hw2]
      simp only [readList, hr, hvsT]
      have harith : off + w + w * n = off + w * (n + 1) := by omega
      rw [harith]

theorem unpackField_total (f : FieldDef) (buf : List Nat) (off N : Nat)
    (hw : (typeSize f.type).isSome = true)
    (hb : off + fieldSize f ≤ N) (hN : N ≤ buf.length) :
    ∃ v, unpackField buf off f = some (v, off + fieldSize f) ∧
      unpackField (buf.take N) off f = some (v, off + fieldSize f) := by
  obtain ⟨w, hw'⟩ := Option.isSome_iff_exists.1 hw
  by_cases hc : f.arrayLen ≠ 0 ∧ f.type = "char"
  · have hsize : fieldSize f = f.arrayLen := by
      have h1 : typeSize f.type = some 1 := by rw [hc.2]; rfl
      norm_num [fieldSize, sizeofT, h1, orOne, hc.1]
    rw [hsize] at hb
    refine ⟨.str (((buf.drop off).take f.arrayLen).takeWhile (fun b => b ≠ 0)), ?_, ?_⟩
    · simp only [unpackField, if_pos hc, hsize]
    · simp only [unpackField, if_pos hc, hsize,
        take_drop_take buf off f.arrayLen N hb]
  · by_cases ha : f.arrayLen ≠ 0
    · have hsize : fieldSize f = w * f.arrayLen := by
        simp only [fieldSize, sizeofT, hw', Option.getD_some, orOne, if_neg ha]
      rw [hsize] at hb
      obtain ⟨vs, hvs, hvsT⟩ := readList_total buf f.type w hw' f.arrayLen off N hb hN
      exact ⟨.arr vs, by simp only [unpackField, if_neg hc, if_pos ha, hvs, hsize],
        by simp only [unpackField, if_neg hc, if_pos ha, hvsT, hsize]⟩
    · have hne : f.arrayLen = 0 := by omega
      have hsize : fieldSize f = w := by
        norm_num [fieldSize, sizeofT, hw', orOne, hne]
      rw [hsize] at hb
      refine ⟨.num (decodeScalar f.type ((buf.drop off).take w)), ?_, ?_⟩
      · simp only [unpackField, if_neg hc, if_neg ha,
          readScalarLE_some buf off f.type w hw' (by omega), hsize]
      · have hr : readScalarLE (buf.take N) off f.type =
            some (decodeScalar f.type ((buf.drop off).take w), off + w) := by
          rw [readScalarLE_some (buf.take N) off f.type w hw'
            (by rw [List.length_take]; omega)]
          rw [take_drop_take buf off w N hb]
        simp only [unpackField, if_neg hc, if_neg ha, hr, hsize]

theorem unpackFields_total (buf : List Nat) (fs : List FieldDef) :
    ∀ (off : Nat) (obj : List (String × JSValue)) (N : Nat),
    (∀ f ∈ fs, (typeSize f.type).isSome = true) →
    off + (fs.map fieldSize).sum ≤ N → N ≤ buf.length →
    ∃ res, unpackFields buf fs off obj = some res ∧
      unpackFields (buf.take N) fs off obj = some res := by
  induction fs with
  | nil =>
    intro off obj N _ _ _
    exact ⟨obj, rfl, rfl⟩
  | cons f fs ih =>
    intro off obj N htypes hb hN
    have hf := htypes f (List.mem_cons_self f fs)
    have hb1 : off + fieldSize f ≤ N := by
      simp only [List.map_cons, List.sum_cons] at hb
      omega
    obtain ⟨v, hv, hvT⟩ := unpackField_total f buf off N hf hb1 hN
    have hb2 : (off + fieldSize f) + (fs.map fieldSize).sum ≤ N := by
      simp only [List.map_cons, List.sum_cons] at hb
      omega
    obtain ⟨res, hres, hresT⟩ := ih (off + fieldSize f) (obj ++ [(f.name, v)]) N
      (fun g hg => htypes g (List.mem_cons_of_mem f hg)) hb2 hN
    exact ⟨res, by simp only [unpackFields, hv, hres],
      by simp only [unpackFields, hvT, hresT]⟩

/-- C10 (confirmed): for every message definition whose field type tags are
all in the scalar type table and every payload buffer at least as long as the
computed total payload size (sum over fields of width × max(arrayLength, 1)),
`unpackPayload` returns a value without throwing, and the result depends only
on the first total-size bytes of the buffer: unpacking the truncated buffer
gives the same result. -/
theorem unpackPayload_total_prefix (d : MessageDef) (buf : List Nat)
    (htypes : ∀ f ∈ d.fields, (typeSize f.type).isSome = true)
    (hlen : totalSize d ≤ buf.length) :
    (∃ obj, unpackPayload d buf = some obj) ∧
      unpackPayload d buf = unpackPayload d (buf.take (totalSize d)) := by
  have hall : ∀ f ∈ sortFieldsForPacking d.fields, (typeSize f.type).isSome = true :=
    fun f hf => htypes f ((mem_sortFieldsForPacking _ f).1 hf)
  have hsum : ((sortFieldsForPacking d.fields).map fieldSize).sum = totalSize d :=
    sum_sortFieldsForPacking d.fields
  obtain ⟨res, hres, hresT⟩ := unpackFields_total buf (sortFieldsForPacking d.fields)
    0 [] (totalSize d) hall (by omega) hlen
  refine ⟨⟨res, hres⟩, ?_⟩
  show unpackFields buf (sortFieldsForPacking d.fields) 0 [] =
    unpackFields (buf.take (totalSize d)) (sortFieldsForPacking d.fields) 0 []
  rw [hres, hresT]

/-- Concrete instance of `unpackPayload_total_prefix`: a `uint16_t` scalar
plus `char[2]` definition (total size 4) against a 6-byte buffer. -/
theorem unpackPayload_total_prefix_witness :
    ((∀ f ∈ ([⟨"v", "uint16_t", 0⟩, ⟨"s", "char", 2⟩] : List FieldDef),
        (typeSize f.type).isSome = true) ∧
      totalSize { id := 2, crc := 9, fields := [⟨"v", "uint16_t", 0⟩, ⟨"s", "char", 2⟩] } ≤
        ([1, 2, 104, 0, 5, 6] : List Nat).length) ∧
    ((∃ obj, unpackPayload
        { id := 2, crc := 9, fields := [⟨"v", "uint16_t", 0⟩, ⟨"s", "char", 2⟩] }
        [1, 2, 104, 0, 5, 6] = some obj) ∧
      unpackPayload { id := 2, crc := 9, fields := [⟨"v", "uint16_t", 0⟩, ⟨"s", "char", 2⟩] }
          [1, 2, 104, 0, 5, 6] =
        unpackPayload { id := 2, crc := 9, fields := [⟨"v", "uint16_t", 0⟩, ⟨"s", "char", 2⟩] }
          (([1, 2, 104, 0, 5, 6] : List Nat).take (totalSize
            { id := 2, crc := 9, fields := [⟨"v", "uint16_t", 0⟩, ⟨"s", "char", 2⟩] }))) :=
  ⟨⟨by decide, by decide⟩,
   unpackPayload_total_prefix _ _ (by decide) (by decide)⟩

/-! ## Frame builder -/

/-- C4 (confirmed): for a payload of at most 255 bytes, `buildFrameV2`
produces `0xFD`, the payload length, the two flag bytes, sequence, system id
and component id each mod 256, the 3-byte little-endian message id, the
payload, and the little-endian 16-bit CRC obtained by digesting header bytes
1–9 followed by the payload (seed 0xFFFF) and then accumulating the
definition's CRC-extra byte; the frame is 12 + payload.length bytes, and the
three id bytes recombine to the message id. -/
theorem buildFrameV2_layout (d : MessageDef) (payload : List Nat) (opts : BuildOpts)
    (hp : payload.length ≤ 255) (hid : d.id < 2 ^ 24) :
    buildFrameV2 d payload opts =
      [0xFD, payload.length, opts.incompatFlags % 256, opts.compatFlags % 256,
        opts.seq % 256, opts.sysid % 256, opts.compid % 256] ++ leBytes 3 d.id ++
      payload ++
      leBytes 2 (crcAccumulate (d.crc % 256)
        (crcX25 ([payload.length, opts.incompatFlags % 256, opts.compatFlags % 256,
          opts.seq % 256, opts.sysid % 256, opts.compid % 256] ++ leBytes 3 d.id ++
          payload) 0xFFFF)) ∧
    (buildFrameV2 d payload opts).length = 12 + payload.length ∧
    leNat (leBytes 3 d.id) = d.id := by
  have hplen : payload.length % 256 = payload.length := Nat.mod_eq_of_lt (by omega)
  have hdd : d.id >>> 8 = d.id / 256 := by
    rw [Nat.shiftRight_eq_div_pow]
  have hdd2 : d.id >>> 16 = d.id / 256 / 256 := by
    rw [Nat.shiftRight_eq_div_pow, Nat.div_div_eq_div_mul]
  refine ⟨?_, ?_, ?_⟩
  · simp only [buildFrameV2, crcX25d, hplen, hdd, hdd2, leBytes, List.cons_append,
      List.nil_append, List.drop_succ_cons, List.drop_zero]
  · simp only [buildFrameV2, List.length_append, List.length_cons, List.length_nil,
      leBytes_length]
    omega
  · rw [leNat_leBytes]
    have h3 : (256 : Nat) ^ 3 = 2 ^ 24 := by norm_num
    rw [h3]
    exact Nat.mod_eq_of_lt hid

/-- Concrete instance of `buildFrameV2_layout` for a one-byte payload. -/
theorem buildFrameV2_layout_witness :
    (([9] : List Nat).length ≤ 255 ∧ (5 : Nat) < 2 ^ 24) ∧
    (buildFrameV2 { id := 5, crc := 17, fields := [] } [9] defaultOpts).length =
      12 + ([9] : List Nat).length :=
  ⟨⟨by decide, by decide⟩,
   (buildFrameV2_layout { id := 5, crc := 17, fields := [] } [9] defaultOpts
     (by decide) (by decide)).2.1⟩

/-- C8 (corrected, amended): the encode path has no payload-size check: for
every definition, payload and options, `buildFrameV2` returns a complete
frame of length 12 + payload.length whose declared length byte is
`payload.length % 256` — a payload longer than 255 bytes silently truncates
the length byte instead of failing with PayloadTooLarge. -/
theorem buildFrameV2_no_size_check (d : MessageDef) (payload : List Nat)
    (opts : BuildOpts) :
    (buildFrameV2 d payload opts).length = 12 + payload.length ∧
    (buildFrameV2 d payload opts).getD 1 0 = payload.length % 256 := by
  constructor
  · simp only [buildFrameV2, List.length_append, List.length_cons, List.length_nil,
      leBytes_length]
    omega
  · simp only [buildFrameV2, List.cons_append, List.getD_cons_succ, List.getD_cons_zero]

set_option maxRecDepth 4000 in
/-- C8 counterexample: a `uint8_t[300]` definition (total size 300 > 255).
`packPayload` succeeds with a 300-byte payload and `buildFrameV2` returns a
312-byte frame — no PayloadTooLarge failure anywhere — whose declared length
byte is `300 % 256 = 44`: a silently truncating frame is returned to the
caller. -/
theorem payload_too_large_counterexample :
    packPayload { id := 42, crc := 7, fields := [⟨"data", "uint8_t", 300⟩] } [] =
      some (List.replicate 300 0) ∧
    (buildFrameV2 { id := 42, crc := 7, fields := [⟨"data", "uint8_t", 300⟩] }
      (List.replicate 300 0) defaultOpts).length = 312 ∧
    (buildFrameV2 { id := 42, crc := 7, fields := [⟨"data", "uint8_t", 300⟩] }
      (List.replicate 300 0) defaultOpts).getD 1 0 = 44 := by
  refine ⟨by decide, ?_, ?_⟩
  · simp only [buildFrameV2, List.length_append, List.length_cons, List.length_nil,
      leBytes_length, List.length_replicate]
  · simp only [buildFrameV2, List.cons_append, List.getD_cons_succ, List.getD_cons_zero,
      List.length_replicate]

/-! ## Frame scanner: loop characterization -/

theorem scanGo_succ (fuel : Nat) (buf : List Nat) (i : Nat) :
    scanGo (fuel + 1) buf i =
      if i < buf.length then
        if buf.getD i 0 ≠ 0xFD then scanGo fuel buf (i + 1)
        else if i + 10 > buf.length then []
        else if i + (10 + buf.getD (i + 1) 0 + 2) > buf.length then []
        else { start := i, stop := i + (10 + buf.getD (i + 1) 0 + 2),
               frameBuf := (buf.drop i).take (10 + buf.getD (i + 1) 0 + 2) } ::
          scanGo fuel buf (i + (10 + buf.getD (i + 1) 0 + 2))
      else [] := rfl

theorem scanGo_succ_mono (buf : List Nat) :
    ∀ fuel i, buf.length ≤ fuel + i → scanGo (fuel + 1) buf i = scanGo fuel buf i := by
  intro fuel
  induction fuel with
  | zero =>
    intro i h
    rw [scanGo_succ, if_neg (by omega)]
    rfl
  | succ fuel ih =>
    intro i h
    conv_lhs => rw [scanGo_succ (fuel + 1)]
    conv_rhs => rw [scanGo_succ fuel]
    by_cases hi : i < buf.length
    · rw [if_pos hi, if_pos hi]
      by_cases hm : buf.getD i 0 ≠ 0xFD
      · rw [if_pos hm, if_pos hm, ih (i + 1) (by omega)]
      · rw [if_neg hm, if_neg hm]
        by_cases hh : i + 10 > buf.length
        · rw [if_pos hh, if_pos hh]
        · rw [if_neg hh, if_neg hh]
          by_cases hf : i + (10 + buf.getD (i + 1) 0 + 2) > buf.length
          · rw [if_pos hf, if_pos hf]
          · rw [if_neg hf, if_neg hf, ih _ (by omega)]
    · rw [if_neg hi, if_neg hi]

theorem scanGo_eq_scanFrom (buf : List Nat) :
    ∀ fuel i, buf.length ≤ fuel + i → scanGo fuel buf i = scanFrom buf i := by
  intro fuel
  induction fuel with
  | zero =>
    intro i h
    unfold scanFrom
    have h0 : buf.length - i = 0 := by omega
    rw [h0]
  | succ fuel ih =>
    intro i h
    by_cases h2 : buf.length ≤ fuel + i
    · rw [scanGo_succ_mono buf fuel i h2]
      exact ih i h2
    · unfold scanFrom
      have h1 : buf.length - i = fuel + 1 := by omega
      rw [h1]

theorem scanFrom_stop (buf : List Nat) (i : Nat) (h : buf.length ≤ i) :
    scanFrom buf i = [] := by
  unfold scanFrom
  have h0 : buf.length - i = 0 := by omega
  rw [h0]
  rfl

theorem scanFrom_skip (buf : List Nat) (i : Nat) (hi : i < buf.length)
    (hm : buf.getD i 0 ≠ 0xFD) : scanFrom buf i = scanFrom buf (i + 1) := by
  obtain ⟨m, hm'⟩ : ∃ m, buf.length - i = m + 1 := ⟨buf.length - i - 1, by omega⟩
  rw [scanFrom, hm', scanGo_succ, if_pos hi, if_pos hm]
  exact scanGo_eq_scanFrom buf m (i + 1) (by omega)

theorem scanFrom_short_header (buf : List Nat) (i : Nat) (hi : i < buf.length)
    (hm : buf.getD i 0 = 0xFD) (hs : buf.length < i + 10) : scanFrom buf i = [] := by
  obtain ⟨m, hm'⟩ : ∃ m, buf.length - i = m + 1 := ⟨buf.length - i - 1, by omega⟩
  rw [scanFrom, hm', scanGo_succ, if_pos hi, if_neg (not_not_intro hm),
    if_pos (by omega)]

theorem scanFrom_incomplete (buf : List Nat) (i : Nat) (hi : i < buf.length)
    (hm : buf.getD i 0 = 0xFD) (hs : i + 10 ≤ buf.length)
    (hf : buf.length < i + (10 + buf.getD (i + 1) 0 + 2)) : scanFrom buf i = [] := by
  obtain ⟨m, hm'⟩ : ∃ m, buf.length - i = m + 1 := ⟨buf.length - i - 1, by omega⟩
  rw [scanFrom, hm', scanGo_succ, if_pos hi, if_neg (not_not_intro hm),
    if_neg (by omega), if_pos (by omega)]

theorem scanFrom_emit (buf : List Nat) (i : Nat) (hi : i < buf.length)
    (hm : buf.getD i 0 = 0xFD)
    (hf : i + (10 + buf.getD (i + 1) 0 + 2) ≤ buf.length) :
    scanFrom buf i =
      { start := i, stop := i + (10 + buf.getD (i + 1) 0 + 2),
        frameBuf := (buf.drop i).take (10 + buf.getD (i + 1) 0 + 2) } ::
        scanFrom buf (i + (10 + buf.getD (i + 1) 0 + 2)) := by
  obtain ⟨m, hm'⟩ : ∃ m, buf.length - i = m + 1 := ⟨buf.length - i - 1, by omega⟩
  rw [scanFrom, hm', scanGo_succ, if_pos hi, if_neg (not_not_intro hm),
    if_neg (by omega), if_neg (by omega)]
  rw [scanGo_eq_scanFrom buf m (i + (10 + buf.getD (i + 1) 0 + 2)) (by omega)]

/-- C5 (confirmed): `scanFramesV2` is one left-to-right scan: a byte that is
not `0xFD` is skipped one position at a time; at a marker with fewer than 10
bytes remaining, or where `10 + lengthByte + 2` exceeds the buffer, scanning
stops and emits nothing more (the tail stays with the caller); otherwise the
slice `[marker, marker + 10 + len + 2)` is emitted as a candidate and the
scan resumes immediately past it, so one buffer can yield several
candidates. Emission is decided by these length comparisons alone — no
equation consults the CRC bytes — so candidates never depend on a CRC
comparison. -/
theorem scanFramesV2_spec :
    (∀ buf : List Nat, scanFramesV2 buf = scanFrom buf 0) ∧
    (∀ (buf : List Nat) (i : Nat), buf.length ≤ i → scanFrom buf i = []) ∧
    (∀ (buf : List Nat) (i : Nat), i < buf.length → buf.getD i 0 ≠ 0xFD →
      scanFrom buf i = scanFrom buf (i + 1)) ∧
    (∀ (buf : List Nat) (i : Nat), i < buf.length → buf.getD i 0 = 0xFD →
      buf.length < i + 10 → scanFrom buf i = []) ∧
    (∀ (buf : List Nat) (i : Nat), i < buf.length → buf.getD i 0 = 0xFD →
      i + 10 ≤ buf.length → buf.length < i + (10 + buf.getD (i + 1) 0 + 2) →
      scanFrom buf i = []) ∧
    (∀ (buf : List Nat) (i : Nat), i < buf.length → buf.getD i 0 = 0xFD →
      i + (10 + buf.getD (i + 1) 0 + 2) ≤ buf.length →
      scanFrom buf i =
        { start := i, stop := i + (10 + buf.getD (i + 1) 0 + 2),
          frameBuf := (buf.drop i).take (10 + buf.getD (i + 1) 0 + 2) } ::
          scanFrom buf (i + (10 + buf.getD (i + 1) 0 + 2))) :=
  ⟨fun _ => rfl, scanFrom_stop, scanFrom_skip, scanFrom_short_header,
   scanFrom_incomplete, scanFrom_emit⟩

/-- Concrete instance of `scanFramesV2_spec` on a buffer holding a noise
byte followed by two back-to-back 12-byte candidate frames (declared length
0): the noise byte is skipped and both frames are emitted in one scan,
whatever their CRC bytes hold. -/
theorem scanFramesV2_spec_witness :
    ((0 < ([0xAA, 0xFD, 0, 1, 2, 3, 4, 5, 6, 7, 8, 9, 77, 88, 0xFD, 0, 1, 2, 3,
        4, 5, 6, 7, 8, 99, 11] : List Nat).length ∧
      ([0xAA, 0xFD, 0, 1, 2, 3, 4, 5, 6, 7, 8, 9, 77, 88, 0xFD, 0, 1, 2, 3,
        4, 5, 6, 7, 8, 99, 11] : List Nat).getD 0 0 ≠ 0xFD) ∧
     scanFrom [0xAA, 0xFD, 0, 1, 2, 3, 4, 5, 6, 7, 8, 9, 77, 88, 0xFD, 0, 1, 2, 3,
        4, 5, 6, 7, 8, 99, 11] 0 =
       scanFrom [0xAA, 0xFD, 0, 1, 2, 3, 4, 5, 6, 7, 8, 9, 77, 88, 0xFD, 0, 1, 2, 3,
        4, 5, 6, 7, 8, 99, 11] 1) ∧
    scanFrom [0xAA, 0xFD, 0, 1, 2, 3, 4, 5, 6, 7, 8, 9, 77, 88, 0xFD, 0, 1, 2, 3,
        4, 5, 6, 7, 8, 99, 11] 1 =
      { start := 1, stop := 13,
        frameBuf := [0xFD, 0, 1, 2, 3, 4, 5, 6, 7, 8, 9, 77] } ::
        scanFrom [0xAA, 0xFD, 0, 1, 2, 3, 4, 5, 6, 7, 8, 9, 77, 88, 0xFD, 0, 1, 2, 3,
          4, 5, 6, 7, 8, 99, 11] 13 :=
  ⟨⟨⟨by decide, by decide⟩,
    scanFramesV2_spec.2.2.1 _ 0 (by decide) (by decide)⟩,
   by
    have h := scanFramesV2_spec.2.2.2.2.2
      [0xAA, 0xFD, 0, 1, 2, 3, 4, 5, 6, 7, 8, 9, 77, 88, 0xFD, 0, 1, 2, 3,
        4, 5, 6, 7, 8, 99, 11] 1 (by decide) (by decide) (by decide)
    simpa using h⟩

/-! ## mavlink-io buffer policy -/

theorem scanFrom_skip_to (buf : List Nat) :
    ∀ (n i k : Nat), k = i + n → (∀ j, i ≤ j → j < k → buf.getD j 0 ≠ 0xFD) →
      k ≤ buf.length → scanFrom buf i = scanFrom buf k := by
  intro n
  induction n with
  | zero =>
    intro i k hk _ _
    subst hk
    rfl
  | succ n ih =>
    intro i k hk hjs hklen
    have hi : i < buf.length := by omega
    rw [scanFrom_skip buf i hi (hjs i (Nat.le_refl i) (by omega))]
    exact ih (i + 1) k (by omega) (fun j hj1 hj2 => hjs j (by omega) hj2) hklen

theorem getD_replicate (n i : Nat) (a d : Nat) (h : i < n) :
    (List.replicate n a).getD i d = a := by
  induction n generalizing i with
  | zero => omega
  | succ n ihn =>
    cases i with
    | zero => rfl
    | succ i => exact ihn i (by omega)

theorem lastIdxOf_append (b : Nat) (xs ys : List Nat) :
    lastIdxOf b (xs ++ ys) =
      match lastIdxOf b ys with
      | some j => some (xs.length + j)
      | none => lastIdxOf b xs := by
  induction xs with
  | nil =>
    simp only [List.nil_append, List.length_nil, lastIdxOf]
    cases lastIdxOf b ys <;> simp
  | cons x xs ih =>
    show (match lastIdxOf b (xs ++ ys) with
          | some j => some (j + 1)
          | none => if x == b then some 0 else none) = _
    rw [ih]
    cases h : lastIdxOf b ys with
    | none => rfl
    | some j =>
      simp only [List.length_cons, Option.some.injEq]
      omega

theorem lastIdxOf_replicate_zero (k : Nat) :
    lastIdxOf 0xFD (List.replicate k 0) = none := by
  induction k with
  | zero => rfl
  | succ k ih => simp [List.replicate, lastIdxOf, ih]

/-- The buffer-trim rule of `handleIncoming` when the scan emitted nothing
and the buffer has outgrown the 2048-byte bound: cut at the **last**
`0xFD` byte, or drop everything when no marker exists. -/
theorem handleIncoming_cut (rxBuf chunk : List Nat)
    (hnoframe : scanFramesV2 (rxBuf ++ chunk) = [])
    (hbig : (rxBuf ++ chunk).length > 2048) :
    handleIncoming rxBuf chunk =
      (match lastIdxOf 0xFD (rxBuf ++ chunk) with
       | some idx => (rxBuf ++ chunk).drop idx
       | none => []) := by
  simp only [handleIncoming, hnoframe, List.map_nil, List.foldl_nil]
  rw [if_neg (by omega), if_pos hbig]

/-- C9 (corrected, amended): after a scan-and-append pass in which no frame
was emitted and the retained buffer has grown past 2048 bytes, the buffer is
cut by seeking to the **last** marker byte `0xFD` (`lastIndexOf`) and
dropping everything before it — the whole buffer when it contains no
marker — bounding retention on marker-free garbage input. (The claim's
"next marker", the first one in the buffer, is what
`handleIncoming_lastMarker_counterexample` refutes.) -/
theorem handleIncoming_resync (rxBuf chunk : List Nat)
    (hnoframe : scanFramesV2 (rxBuf ++ chunk) = [])
    (hbig : (rxBuf ++ chunk).length > 2048) :
    handleIncoming rxBuf chunk =
      (match lastIdxOf 0xFD (rxBuf ++ chunk) with
       | some idx => (rxBuf ++ chunk).drop idx
       | none => []) :=
  handleIncoming_cut rxBuf chunk hnoframe hbig

/-- Concrete instance of `handleIncoming_resync`: 2049 zero bytes contain no
marker, so the scan emits nothing, the bound is exceeded, and the buffer is
emptied. -/
theorem handleIncoming_resync_witness :
    (scanFramesV2 (List.replicate 2049 0 ++ []) = [] ∧
      (List.replicate 2049 0 ++ ([] : List Nat)).length > 2048) ∧
    handleIncoming (List.replicate 2049 0) [] = [] := by
  have hlenr : (List.replicate 2049 0 : List Nat).length = 2049 :=
    List.length_replicate 2049 0
  have hnm : scanFramesV2 (List.replicate 2049 0 ++ []) = [] := by
    rw [List.append_nil]
    show scanFrom (List.replicate 2049 0) 0 = []
    rw [scanFrom_skip_to (List.replicate 2049 0) 2049 0 2049 rfl
      (fun j _ hj => by
        rw [getD_replicate 2049 j 0 0 hj]
        decide)
      (by rw [hlenr])]
    exact scanFrom_stop _ _ (by rw [hlenr])
  have hbig : (List.replicate 2049 0 ++ ([] : List Nat)).length > 2048 := by
    rw [List.append_nil, hlenr]
    omega
  refine ⟨⟨hnm, hbig⟩, ?_⟩
  rw [handleIncoming_resync (List.replicate 2049 0) [] hnm hbig, List.append_nil,
    lastIdxOf_replicate_zero]

/-- C9 counterexample: the 2050-byte buffer
`replicate 2035 0 ++ [0xFD, 0xFF] ++ replicate 8 0 ++ [0xFD] ++ replicate 4 0`
yields no frame (the first marker, at index 2035, declares a 255-byte payload
that does not fit), its **first** marker is at 2035, but `handleIncoming`
keeps `drop 2045` — the cut is at the *last* marker, not at the next marker
as claimed: the claimed result `drop 2035` differs. -/
theorem handleIncoming_lastMarker_counterexample :
    scanFramesV2 ((List.replicate 2035 0 ++ ([0xFD, 0xFF] ++ (List.replicate 8 0 ++
        ([0xFD] ++ List.replicate 4 0)))) ++ []) = [] ∧
    (List.replicate 2035 0 ++ ([0xFD, 0xFF] ++ (List.replicate 8 0 ++
        ([0xFD] ++ List.replicate 4 0)))).length = 2050 ∧
    (List.replicate 2035 0 ++ ([0xFD, 0xFF] ++ (List.replicate 8 0 ++
        ([0xFD] ++ List.replicate 4 0)))).getD 2035 0 = 0xFD ∧
    (∀ j, j < 2035 → (List.replicate 2035 0 ++ ([0xFD, 0xFF] ++ (List.replicate 8 0 ++
        ([0xFD] ++ List.replicate 4 0)))).getD j 0 ≠ 0xFD) ∧
    handleIncoming (List.replicate 2035 0 ++ ([0xFD, 0xFF] ++ (List.replicate 8 0 ++
        ([0xFD] ++ List.replicate 4 0)))) [] =
      (List.replicate 2035 0 ++ ([0xFD, 0xFF] ++ (List.replicate 8 0 ++
        ([0xFD] ++ List.replicate 4 0)))).drop 2045 ∧
    handleIncoming (List.replicate 2035 0 ++ ([0xFD, 0xFF] ++ (List.replicate 8 0 ++
        ([0xFD] ++ List.replicate 4 0)))) [] ≠
      (List.replicate 2035 0 ++ ([0xFD, 0xFF] ++ (List.replicate 8 0 ++
        ([0xFD] ++ List.replicate 4 0)))).drop 2035 := by
  have hrep35 : (List.replicate 2035 0 : List Nat).length = 2035 :=
    List.length_replicate 2035 0
  have hlen : (List.replicate 2035 0 ++ ([0xFD, 0xFF] ++ (List.replicate 8 0 ++
      ([0xFD] ++ List.replicate 4 0)))).length = 2050 := by
    simp only [List.length_append, List.length_replicate, List.length_cons,
      List.length_nil]
  have hget : ∀ j, j < 2035 → (List.replicate 2035 0 ++ ([0xFD, 0xFF] ++
      (List.replicate 8 0 ++ ([0xFD] ++ List.replicate 4 0)))).getD j 0 ≠ 0xFD := by
    intro j hj
    rw [List.getD_append _ _ 0 j (by rw [hrep35]; omega)]
    rw [getD_replicate 2035 j 0 0 hj]
    decide
  have hm35 : (List.replicate 2035 0 ++ ([0xFD, 0xFF] ++ (List.replicate 8 0 ++
      ([0xFD] ++ List.replicate 4 0)))).getD 2035 0 = 0xFD := by
    rw [List.getD_append_right _ _ 0 2035 (by rw [hrep35])]
    have h0 : 2035 - 2035 = 0 := by norm_num
    rw [hrep35, h0]
    rfl
  have hm36 : (List.replicate 2035 0 ++ ([0xFD, 0xFF] ++ (List.replicate 8 0 ++
      ([0xFD] ++ List.replicate 4 0)))).getD 2036 0 = 0xFF := by
    rw [List.getD_append_right _ _ 0 2036 (by rw [hrep35]; omega)]
    have h1 : 2036 - 2035 = 1 := by norm_num
    rw [hrep35, h1]
    rfl
  have hnoframe : scanFramesV2 ((List.replicate 2035 0 ++ ([0xFD, 0xFF] ++
      (List.replicate 8 0 ++ ([0xFD] ++ List.replicate 4 0)))) ++ []) = [] := by
    rw [List.append_nil]
    show scanFrom _ 0 = []
    rw [scanFrom_skip_to _ 2035 0 2035 rfl (fun j _ hj => hget j hj) (by omega)]
    refine scanFrom_incomplete _ 2035 (by omega) hm35 (by omega) ?_
    rw [hm36, hlen]
    omega
  have hlast : lastIdxOf 0xFD (List.replicate 2035 0 ++ ([0xFD, 0xFF] ++
      (List.replicate 8 0 ++ ([0xFD] ++ List.replicate 4 0)))) = some 2045 := by
    rw [lastIdxOf_append, lastIdxOf_append, lastIdxOf_append, lastIdxOf_append]
    rw [lastIdxOf_replicate_zero]
    norm_num [lastIdxOf]
  have hmain : handleIncoming (List.replicate 2035 0 ++ ([0xFD, 0xFF] ++
      (List.replicate 8 0 ++ ([0xFD] ++ List.replicate 4 0)))) [] =
      (List.replicate 2035 0 ++ ([0xFD, 0xFF] ++ (List.replicate 8 0 ++
        ([0xFD] ++ List.replicate 4 0)))).drop 2045 := by
    rw [handleIncoming_cut _ [] hnoframe (by rw [List.append_nil]; omega)]
    rw [List.append_nil, hlast]
  refine ⟨hnoframe, hlen, hm35, hget, hmain, ?_⟩
  intro heq
  rw [hmain] at heq
  have h1 := congrArg List.length heq
  rw [List.length_drop, List.length_drop, hlen] at h1
  omega

/-! ## mavlink-parse dispatch -/

/-- C7 (corrected, amended): the dispatch of one candidate frame always
emits a `ParseOut` (it is a total function — nothing throws, no frame is
dropped), and:
* with no matching definition, the raw payload is carried with
  `checksumOk = false` and no `name` (there is no distinct unknown-message
  marker in the output);
* with a definition and a failing CRC, the raw payload is carried with
  `checksumOk = false` and no `name`;
* with a definition, a matching CRC and a successful decode, the output
  carries the decoded mapping, the message name and `checksumOk = true`;
* with a matching CRC but a failing decode, the raw payload is preserved but
  `checksumOk` **stays `true`** and no decode-failed marking is set. -/
theorem parseFrame_spec (messages : List (String × MessageDef)) (frame : List Nat) :
    (frameDefLookup messages frame = none →
      parseFrame messages frame =
        { msgid := frameMsgid frame, seq := frame.getD 4 0, sysid := frame.getD 5 0,
          compid := frame.getD 6 0, incompatFlags := frame.getD 2 0,
          compatFlags := frame.getD 3 0, checksumOk := false, name := none,
          payloadRaw := framePayload frame,
          payloadOut := .inl (framePayload frame) }) ∧
    (∀ m, frameDefLookup messages frame = some m → frameCrcOk m frame = false →
      parseFrame messages frame =
        { msgid := frameMsgid frame, seq := frame.getD 4 0, sysid := frame.getD 5 0,
          compid := frame.getD 6 0, incompatFlags := frame.getD 2 0,
          compatFlags := frame.getD 3 0, checksumOk := false, name := none,
          payloadRaw := framePayload frame,
          payloadOut := .inl (framePayload frame) }) ∧
    (∀ m obj, frameDefLookup messages frame = some m → frameCrcOk m frame = true →
      unpackPayload m (framePayload frame) = some obj →
      parseFrame messages frame =
        { msgid := frameMsgid frame, seq := frame.getD 4 0, sysid := frame.getD 5 0,
          compid := frame.getD 6 0, incompatFlags := frame.getD 2 0,
          compatFlags := frame.getD 3 0, checksumOk := true,
          name := (messages.find? (fun p => p.2.id == frameMsgid frame)).map
            (fun p => p.1),
          payloadRaw := framePayload frame, payloadOut := .inr obj }) ∧
    (∀ m, frameDefLookup messages frame = some m → frameCrcOk m frame = true →
      unpackPayload m (framePayload frame) = none →
      parseFrame messages frame =
        { msgid := frameMsgid frame, seq := frame.getD 4 0, sysid := frame.getD 5 0,
          compid := frame.getD 6 0, incompatFlags := frame.getD 2 0,
          compatFlags := frame.getD 3 0, checksumOk := true, name := none,
          payloadRaw := framePayload frame,
          payloadOut := .inl (framePayload frame) }) := by
  refine ⟨?_, ?_, ?_, ?_⟩
  · intro h
    simp only [parseFrame, h]
  · intro m h hcrc
    simp only [parseFrame, h, hcrc]
    rfl
  · intro m obj h hcrc hun
    simp only [parseFrame, h, hcrc, hun]
    rfl
  · intro m h hcrc hun
    simp only [parseFrame, h, hcrc, hun]
    rfl

/-- C7 counterexample: a frame whose CRC (with CRC-extra 20) is valid for
the schema entry `POS` (id 9, a single `uint16_t` field, total size 2) but
whose declared payload is only 1 byte, so decoding fails. The emitted
message keeps the raw payload but is marked `checksumOk = true` with no
`name` — it is **not** marked checksum-failed/decode-failed as the claim
requires (the output carries no decode-failure marking at all). -/
theorem parseFrame_decode_fail_counterexample :
    unpackPayload { id := 9, crc := 20, fields := [⟨"v", "uint16_t", 0⟩] }
      [0xAB] = none ∧
    frameCrcOk { id := 9, crc := 20, fields := [⟨"v", "uint16_t", 0⟩] }
      [0xFD, 1, 0, 0, 0, 1, 1, 9, 0, 0, 0xAB, 210, 114] = true ∧
    (parseFrame [("POS", { id := 9, crc := 20, fields := [⟨"v", "uint16_t", 0⟩] })]
      [0xFD, 1, 0, 0, 0, 1, 1, 9, 0, 0, 0xAB, 210, 114]).checksumOk = true ∧
    (parseFrame [("POS", { id := 9, crc := 20, fields := [⟨"v", "uint16_t", 0⟩] })]
      [0xFD, 1, 0, 0, 0, 1, 1, 9, 0, 0, 0xAB, 210, 114]).payloadOut =
      .inl [0xAB] ∧
    (parseFrame [("POS", { id := 9, crc := 20, fields := [⟨"v", "uint16_t", 0⟩] })]
      [0xFD, 1, 0, 0, 0, 1, 1, 9, 0, 0, 0xAB, 210, 114]).name = none := by
  refine ⟨by decide, by decide, by decide, by decide, by decide⟩

/-- Concrete instance of `parseFrame_spec` (decode-success case): a valid
frame for schema entry `X` (id 5, one `uint8_t` field) decodes to the field
mapping with the name set and `checksumOk = true`. -/
theorem parseFrame_spec_witness :
    (frameDefLookup [("X", { id := 5, crc := 17, fields := [⟨"x", "uint8_t", 0⟩] })]
        [0xFD, 1, 0, 0, 0, 1, 1, 5, 0, 0, 9, 0, 206] =
        some { id := 5, crc := 17, fields := [⟨"x", "uint8_t", 0⟩] } ∧
      frameCrcOk { id := 5, crc := 17, fields := [⟨"x", "uint8_t", 0⟩] }
        [0xFD, 1, 0, 0, 0, 1, 1, 5, 0, 0, 9, 0, 206] = true ∧
      unpackPayload { id := 5, crc := 17, fields := [⟨"x", "uint8_t", 0⟩] }
        (framePayload [0xFD, 1, 0, 0, 0, 1, 1, 5, 0, 0, 9, 0, 206]) =
        some [("x", JSValue.num 9)]) ∧
    parseFrame [("X", { id := 5, crc := 17, fields := [⟨"x", "uint8_t", 0⟩] })]
        [0xFD, 1, 0, 0, 0, 1, 1, 5, 0, 0, 9, 0, 206] =
      { msgid := 5, seq := 0, sysid := 1, compid := 1, incompatFlags := 0,
        compatFlags := 0, checksumOk := true, name := some "X",
        payloadRaw := [9], payloadOut := .inr [("x", JSValue.num 9)] } := by
  refine ⟨⟨by decide, by decide, by decide⟩, ?_⟩
  have h := (parseFrame_spec
    [("X", { id := 5, crc := 17, fields := [⟨"x", "uint8_t", 0⟩] })]
    [0xFD, 1, 0, 0, 0, 1, 1, 5, 0, 0, 9, 0, 206]).2.2.1
    { id := 5, crc := 17, fields := [⟨"x", "uint8_t", 0⟩] }
    [("x", JSValue.num 9)] (by decide) (by decide) (by decide)
  rw [h]
  decide

end MavToolkit
